import Mathlib

/-!
# simple-cpu-memory-monitor: sampling and derivation engine

Shallow embedding of `src/ebin2.c` (`get_memory_usage`, `get_cpu_usage`,
`display_stats`, `display_process_list`).

Conventions of the embedding

* `unsigned long` is 64 bits wide (LP64 Linux, the only platform with `/proc`
  this program targets); values are natural numbers and every operation that
  can wrap carries an explicit `% ULONG_MOD`.
* Floating point follows IEEE 754 with round-to-nearest, ties-to-even, each
  operation evaluated in the format of its C type (`FLT_EVAL_METHOD == 0`, as
  on x86-64 and AArch64): `float` is binary32, `double` is binary64. A value is
  a `FloatVal`: the exact rational a finite float stands for, or one of the
  special values; every operation computes the exact result and rounds it to
  its format. The sign of a zero is not represented.
* A C string is modelled by a `String`; its bytes are those of the UTF-8
  encoding, and lengths and truncations count bytes.
* Files are modelled by what the C library hands back: `none` when `fopen`
  returns `NULL`, otherwise the values the `fscanf` calls store.
* Function-local `static` variables become an explicit state that is passed in
  and returned; an uninitialised local becomes a parameter holding its
  indeterminate initial content.
* The `int` row counter is an integer; `main` calls with `start_row = 4`, far
  from the range in which `row++` or `start_row + 10` could overflow.
* The `ncurses` calls are kept only as the list of `mvprintw` calls made, with
  their arguments.
-/

namespace CpuMon

/-! ## Machine arithmetic -/

/-- Number of values of an `unsigned long`. -/
def ULONG_MOD : Nat := 2 ^ 64

/-- Subtraction of two `unsigned long` values, wrapping modulo `2^64`. -/
def usub (a b : Nat) : Nat := (a % ULONG_MOD + (ULONG_MOD - b % ULONG_MOD)) % ULONG_MOD

/-- Value of a C floating-point expression: the exact rational of a finite
float, or an IEEE special value. -/
inductive FloatVal where
  | finite (q : ℚ)
  | posInf
  | negInf
  | nan
  deriving DecidableEq

/-- Rounding of a rational to the nearest integer, a tie going to the even
neighbour. -/
def round_half_even (x : ℚ) : ℤ :=
  if x - ⌊x⌋ < 1 / 2 then ⌊x⌋
  else if 1 / 2 < x - ⌊x⌋ then ⌊x⌋ + 1
  else if ⌊x⌋ % 2 = 0 then ⌊x⌋ else ⌊x⌋ + 1

/-- An IEEE 754 binary format: `prec` significand bits (the hidden bit
included) and largest exponent `emax`. -/
structure Format where
  prec : ℕ
  emax : ℤ
  deriving DecidableEq

/-- Smallest exponent of a normal number, `1 - emax`. -/
def Format.emin (F : Format) : ℤ := 1 - F.emax

/-- The format of a C `float`. -/
def binary32 : Format := ⟨24, 127⟩

/-- The format of a C `double`. -/
def binary64 : Format := ⟨53, 1023⟩

/-- Both formats have at least one significand bit and a precision that does
not exceed the largest exponent. -/
def Format.Sane (F : Format) : Prop := 1 ≤ F.prec ∧ (F.prec : ℤ) ≤ F.emax

/-- Exponent of the binade of `x`: `⌊log₂ |x|⌋`, but not below `emin`
(subnormal numbers share the exponent `emin`). -/
def Format.expo (F : Format) (x : ℚ) : ℤ := max (Int.log 2 |x|) F.emin

/-- Spacing of the floats in the binade of `x`. -/
def Format.quantum (F : Format) (x : ℚ) : ℚ := (2 : ℚ) ^ (F.expo x - ((F.prec : ℤ) - 1))

/-- Rounding to nearest, ties to even, with unbounded exponent range upwards:
the multiple of the quantum nearest to `x`. -/
def Format.roundQ (F : Format) (x : ℚ) : ℚ :=
  (round_half_even (x / F.quantum x) : ℚ) * F.quantum x

/-- Rounding of an exact result to the format: a result that rounds to
magnitude `2^(emax+1)` or more overflows to an infinity. -/
def Format.round (F : Format) (x : ℚ) : FloatVal :=
  if (2 : ℚ) ^ (F.emax + 1) ≤ |F.roundQ x| then
    (if 0 < x then FloatVal.posInf else FloatVal.negInf)
  else FloatVal.finite (F.roundQ x)

namespace FloatVal

/-- Rounding of an exact result that may already be a special value. -/
def round (F : Format) : FloatVal → FloatVal
  | finite q => F.round q
  | v => v

/-- Exact quotient `x / y` with the IEEE special cases, the division of a
finite value by zero included. -/
def divExact : FloatVal → FloatVal → FloatVal
  | finite a, finite b =>
    if b = 0 then (if a = 0 then nan else if 0 < a then posInf else negInf)
    else finite (a / b)
  | finite _, posInf => finite 0
  | finite _, negInf => finite 0
  | posInf, finite b => if 0 ≤ b then posInf else negInf
  | negInf, finite b => if 0 ≤ b then negInf else posInf
  | _, _ => nan

/-- Exact difference `x - y` with the IEEE special cases. -/
def subExact : FloatVal → FloatVal → FloatVal
  | finite a, finite b => finite (a - b)
  | finite _, posInf => negInf
  | finite _, negInf => posInf
  | posInf, finite _ => posInf
  | posInf, negInf => posInf
  | negInf, finite _ => negInf
  | negInf, posInf => negInf
  | _, _ => nan

/-- Exact product `x * y` with the IEEE special cases. -/
def mulExact : FloatVal → FloatVal → FloatVal
  | finite a, finite b => finite (a * b)
  | finite a, posInf => if a = 0 then nan else if 0 < a then posInf else negInf
  | finite a, negInf => if a = 0 then nan else if 0 < a then negInf else posInf
  | posInf, finite b => if b = 0 then nan else if 0 < b then posInf else negInf
  | negInf, finite b => if b = 0 then nan else if 0 < b then negInf else posInf
  | posInf, posInf => posInf
  | negInf, negInf => posInf
  | posInf, negInf => negInf
  | negInf, posInf => negInf
  | _, _ => nan

/-- Conversion of an `unsigned long` to `float`, as in `(float)diff_idle` and
in the conversion of `diff_total` for the division. -/
def ofULong (n : Nat) : FloatVal := binary32.round (n : ℚ)

/-- Division of two `float` values. -/
def div32 (x y : FloatVal) : FloatVal := round binary32 (divExact x y)

/-- Subtraction of two `double` values. -/
def sub64 (x y : FloatVal) : FloatVal := round binary64 (subExact x y)

/-- Multiplication of two `double` values. -/
def mul64 (x y : FloatVal) : FloatVal := round binary64 (mulExact x y)

/-- Conversion of a `double` to `float`, as done by `return` in a function
returning `float`. -/
def toFloat (x : FloatVal) : FloatVal := round binary32 x

end FloatVal

/-! ## `get_cpu_usage` -/

/-- The four counters `fscanf(fp, "cpu %lu %lu %lu %lu", ...)` leaves in
`user`, `nice`, `system`, `idle` (a field that is not matched keeps its
initial value `0`). -/
structure RawCpu where
  user : Nat
  nice : Nat
  system : Nat
  idle : Nat
  deriving DecidableEq

/-- The `static unsigned long prev_total, prev_idle` of `get_cpu_usage`. -/
structure CpuState where
  prev_total : Nat
  prev_idle : Nat
  deriving DecidableEq

/-- Initial value of the statics: `prev_total = 0, prev_idle = 0`. -/
def CpuState.init : CpuState := ⟨0, 0⟩

/-- The C statement `unsigned long total = user + nice + system + idle;`. -/
def cpu_total (c : RawCpu) : Nat := (c.user + c.nice + c.system + c.idle) % ULONG_MOD

/-- The C statement `unsigned long diff_total = total - prev_total;`. -/
def diff_total (c : RawCpu) (st : CpuState) : Nat := usub (cpu_total c) st.prev_total

/-- The C statement `unsigned long diff_idle = idle - prev_idle;`. -/
def diff_idle (c : RawCpu) (st : CpuState) : Nat := usub c.idle st.prev_idle

/-- The C function `float get_cpu_usage()`. `fp` is the result of opening and
scanning `/proc/stat` (`none`: `fopen` failed); the state is the pair of
statics. The return expression `(1.0 - (float)diff_idle / diff_total) * 100`
converts both differences to `float`, divides in `float`, subtracts and
multiplies in `double`, and the result is converted to `float`. -/
def get_cpu_usage (fp : Option RawCpu) (st : CpuState) : FloatVal × CpuState :=
  match fp with
  | none => (FloatVal.finite (-1), st)
  | some c =>
    let total := cpu_total c
    let dt := diff_total c st
    let di := diff_idle c st
    let st' : CpuState := ⟨total, c.idle⟩
    (FloatVal.toFloat
      (FloatVal.mul64
        (FloatVal.sub64 (FloatVal.finite 1)
          (FloatVal.div32 (FloatVal.ofULong di) (FloatVal.ofULong dt)))
        (FloatVal.finite 100)), st')

/-- Value of the return expression of `get_cpu_usage` for given differences,
when no special value arises: the five roundings in the order in which the C
expression makes them. -/
def usage_value (di dt : Nat) : ℚ :=
  binary32.roundQ (binary64.roundQ (binary64.roundQ
    (1 - binary32.roundQ (binary32.roundQ (di : ℚ) / binary32.roundQ (dt : ℚ))) * 100))

/-! ## `get_memory_usage` and `display_stats` -/

/-- What one call `fscanf(fp, "%s %lu kB", label, &value)` that does not return
`EOF` leaves in `label` and `value`. -/
structure MemLine where
  label : String
  value : Nat
  deriving DecidableEq

/-- The scanned label and its terminating NUL fit the buffer `char label[32]`:
the label has at most 31 bytes. The conversion `%s` has no field width, so a
longer label overruns the buffer and the behaviour of `get_memory_usage` is
undefined. -/
def label_fits (l : MemLine) : Bool := l.label.utf8ByteSize < 32

/-- Body of the `while` loop of `get_memory_usage`: the two `strcmp` tests. -/
def mem_step (acc : Nat × Nat) (l : MemLine) : Nat × Nat :=
  (if l.label = "MemTotal:" then l.value else acc.1,
   if l.label = "MemAvailable:" then l.value else acc.2)

/-- The C function
`void get_memory_usage(unsigned long *total, unsigned long *available)`.
`fp` is `/proc/meminfo` (`none`: `fopen` failed), given as the sequence of
results of the `fscanf` calls up to `EOF`; `total` and `available` are the
contents of the two out-parameters on entry, the result their contents on
return. The result describes the runs in which every label fits the buffer
(`label_fits`); a run that overruns `char label[32]` has no defined result. -/
def get_memory_usage (fp : Option (List MemLine)) (total available : Nat) : Nat × Nat :=
  match fp with
  | none => (total, available)
  | some lines => lines.foldl mem_step (total, available)

/-- What `display_stats` prints: the argument of `"CPU Usage: %.2f%%"` and the
two arguments of `"Memory Usage: %lu MB / %lu MB"`. -/
structure StatsOut where
  cpu_usage : FloatVal
  mem_used_mb : Nat
  mem_total_mb : Nat
  deriving DecidableEq

/-- The C function `void display_stats()`. `mem_total0` and `mem_available0` are the
indeterminate initial contents of the uninitialised locals `mem_total` and
`mem_available`. -/
def display_stats (cpu_fp : Option RawCpu) (mem_fp : Option (List MemLine)) (st : CpuState)
    (mem_total0 mem_available0 : Nat) : StatsOut × CpuState :=
  let cpu := get_cpu_usage cpu_fp st
  let mem := get_memory_usage mem_fp mem_total0 mem_available0
  (⟨cpu.1, usub mem.1 mem.2 / 1024, mem.1 / 1024⟩, cpu.2)

/-! ## `display_process_list` -/

/-- The guard `isdigit(*entry->d_name)`: the test on the first byte of the entry name
(the terminating NUL of an empty name is not a digit; a decimal digit is a
single byte in UTF-8, and no other character starts with such a byte). -/
def first_isdigit (d_name : String) : Bool :=
  match d_name.data with
  | [] => false
  | c :: _ => c.isDigit

/-- The call `snprintf(path, sizeof(path), "/proc/%s/stat", entry->d_name)` with
`char path[250]`: the first 249 bytes of the formatted text are kept. The
result lists the bytes kept, one character per byte; for a path of ASCII
characters that is the path itself. -/
def stat_path (d_name : String) : String :=
  ⟨((("/proc/" ++ d_name ++ "/stat").data.flatMap String.utf8EncodeChar).take 249).map
    (fun b => Char.ofNat b.toNat)⟩

/-- What `fscanf(fp, "%d %s", &pid, comm)` leaves in `pid` and `comm`. -/
structure ProcStat where
  pid : Int
  comm : String
  deriving DecidableEq

/-- One `mvprintw` call of `display_process_list`. -/
inductive Draw where
  /-- The call `mvprintw(row, 0, "PID: %d,", pid)` in colour pair 3. -/
  | pidLabel (row : Int) (pid : Int)
  /-- The call `mvprintw(row++, 0, "PID: %d, Command: %s", pid, comm)`. -/
  | procLine (row : Int) (pid : Int) (comm : String)
  deriving DecidableEq

/-- Effects of one call of `display_process_list`: the paths passed to `fopen`
and the `mvprintw` calls, both in program order. -/
structure ProcOut where
  opened : List String
  draws : List Draw
  deriving DecidableEq

/-- The `while ((entry = readdir(dir)) != NULL)` loop of `display_process_list`,
over the entry names `readdir` still has to return, with the current value of
`row`. `fopen` maps a path to the scanned contents of the file, `none` when it
cannot be opened. -/
def process_loop (fopen : String → Option ProcStat) (start_row : Int) :
    List String → Int → ProcOut
  | [], _ => ⟨[], []⟩
  | d_name :: rest, row =>
    if first_isdigit d_name then
      match fopen (stat_path d_name) with
      | none =>
        let r := process_loop fopen start_row rest row
        ⟨stat_path d_name :: r.opened, r.draws⟩
      | some ps =>
        let here := [Draw.pidLabel row ps.pid, Draw.procLine row ps.pid ps.comm]
        if row + 1 > start_row + 10 then ⟨[stat_path d_name], here⟩
        else
          let r := process_loop fopen start_row rest (row + 1)
          ⟨stat_path d_name :: r.opened, here ++ r.draws⟩
    else process_loop fopen start_row rest row

/-- The C function `void display_process_list(int start_row)`. `dir` is the result of
`opendir("/proc")`: `none` when it fails, otherwise the entry names in
`readdir` order. -/
def display_process_list (dir : Option (List String)) (fopen : String → Option ProcStat)
    (start_row : Int) : ProcOut :=
  match dir with
  | none => ⟨[], []⟩
  | some entries => process_loop fopen start_row entries start_row

/-- The process rows on screen: the `(row, pid, comm)` of each full process
line drawn. -/
def proc_rows : List Draw → List (Int × Int × String)
  | [] => []
  | Draw.pidLabel _ _ :: ds => proc_rows ds
  | Draw.procLine row pid comm :: ds => (row, pid, comm) :: proc_rows ds

/-! ## Reference definitions taken from the specification -/

/-- Steps 1 to 3 of `estimate` as the specification words them, over the
integers: `total = user + nice + system + idle`,
`deltaTotal = total - previousTotal`, `deltaIdle = idle - previousIdle`,
result `(1 - deltaIdle/deltaTotal) * 100`. -/
def estimate_spec (c : RawCpu) (previousTotal previousIdle : Int) : ℚ :=
  let total : Int := (c.user : Int) + c.nice + c.system + c.idle
  let deltaTotal : Int := total - previousTotal
  let deltaIdle : Int := (c.idle : Int) - previousIdle
  (1 - (deltaIdle : ℚ) / (deltaTotal : ℚ)) * 100

/-- An entry name is purely numeric, in the words of the specification: every
character of the name is a decimal digit. -/
def purely_numeric (d_name : String) : Bool := d_name.data.all Char.isDigit

/-- The detail records of the entries that pass the digit guard and whose
stat file opens, in registry order. -/
def openable (fopen : String → Option ProcStat) (entries : List String) : List ProcStat :=
  entries.filterMap (fun d_name => if first_isdigit d_name then fopen (stat_path d_name) else none)

/-- Consecutive screen rows, from `row` on, for a list of detail records. -/
def number_rows (row : Int) : List ProcStat → List (Int × Int × String)
  | [] => []
  | ps :: rest => (row, ps.pid, ps.comm) :: number_rows (row + 1) rest

/-! ## Arithmetic lemmas -/

/-- Unsigned subtraction is the ordinary one when it does not go below zero. -/
theorem usub_eq_sub (a b : Nat) (hb : b ≤ a) (ha : a < ULONG_MOD) : usub a b = a - b := by
  have hb' : b < ULONG_MOD := lt_of_le_of_lt hb ha
  unfold usub
  rw [Nat.mod_eq_of_lt ha, Nat.mod_eq_of_lt hb']
  have h : a + (ULONG_MOD - b) = (a - b) + ULONG_MOD := by omega
  rw [h, Nat.add_mod_right]
  exact Nat.mod_eq_of_lt (by omega)

/-- The total is the plain sum of the four counters when that sum fits. -/
theorem cpu_total_eq_sum (c : RawCpu) (hfit : c.user + c.nice + c.system + c.idle < ULONG_MOD) :
    cpu_total c = c.user + c.nice + c.system + c.idle := by
  unfold cpu_total
  exact Nat.mod_eq_of_lt hfit

/-! ## Floating-point rounding -/

/-- The rounded integer is not below the floor. -/
theorem rhe_floor_le (x : ℚ) : ⌊x⌋ ≤ round_half_even x := by
  unfold round_half_even; split_ifs <;> omega

/-- The rounded integer is at most one above the floor. -/
theorem rhe_le_floor_succ (x : ℚ) : round_half_even x ≤ ⌊x⌋ + 1 := by
  unfold round_half_even; split_ifs <;> omega

/-- Rounding to an integer moves a value by at most one half. -/
theorem rhe_abs_sub_le (x : ℚ) : |(round_half_even x : ℚ) - x| ≤ 1 / 2 := by
  have h1 := Int.floor_le x
  have h2 := Int.lt_floor_add_one x
  unfold round_half_even
  rw [abs_le]
  split_ifs with ha hb hc <;> push_cast <;> constructor <;> linarith

/-- Rounding to an integer does not cross an integer above the value. -/
theorem rhe_le_of_le (x : ℚ) (n : ℤ) (h : x ≤ n) : round_half_even x ≤ n := by
  have hf : ⌊x⌋ ≤ n := by
    have h' : ((⌊x⌋ : ℤ) : ℚ) ≤ (n : ℚ) := (Int.floor_le x).trans h
    exact_mod_cast h'
  rcases lt_or_eq_of_le hf with hlt | heq
  · have := rhe_le_floor_succ x; omega
  · have hx : x = n := le_antisymm h (by rw [← heq]; exact Int.floor_le x)
    have h0 : x - ⌊x⌋ = 0 := by rw [heq, hx]; ring
    unfold round_half_even
    rw [h0]; norm_num; omega

/-- Rounding to an integer does not cross an integer below the value. -/
theorem le_rhe_of_le (x : ℚ) (n : ℤ) (h : (n : ℚ) ≤ x) : n ≤ round_half_even x :=
  (Int.le_floor.mpr h).trans (rhe_floor_le x)

/-- An integer rounds to itself. -/
theorem rhe_intCast (n : ℤ) : round_half_even (n : ℚ) = n :=
  le_antisymm (rhe_le_of_le _ n le_rfl) (le_rhe_of_le _ n le_rfl)

/-- Rounding to an integer is monotone. -/
theorem rhe_mono {x y : ℚ} (h : x ≤ y) : round_half_even x ≤ round_half_even y := by
  have hfl : ⌊x⌋ ≤ ⌊y⌋ := Int.floor_mono h
  rcases lt_or_eq_of_le hfl with hlt | heq
  · have := rhe_le_floor_succ x
    have := rhe_floor_le y
    omega
  · unfold round_half_even
    rw [← heq]
    split_ifs <;> first | omega | (exfalso; linarith)


/-- The parameters of binary32 are sane. -/
theorem binary32_sane : binary32.Sane := by unfold Format.Sane binary32; norm_num
/-- The parameters of binary64 are sane. -/
theorem binary64_sane : binary64.Sane := by unfold Format.Sane binary64; norm_num

/-- Powers of two are positive. -/
theorem two_zpow_pos (z : ℤ) : (0 : ℚ) < (2 : ℚ) ^ z := by positivity

/-- Powers of two grow with the exponent. -/
theorem two_zpow_le {a b : ℤ} (h : a ≤ b) : (2 : ℚ) ^ a ≤ (2 : ℚ) ^ b :=
  zpow_le_zpow_right₀ (by norm_num) h

/-- Powers of two grow strictly with the exponent. -/
theorem two_zpow_lt {a b : ℤ} (h : a < b) : (2 : ℚ) ^ a < (2 : ℚ) ^ b :=
  zpow_lt_zpow_right₀ (by norm_num) h

/-- A power of two is an integer multiple of every smaller power of two. -/
theorem two_zpow_multiple {a b : ℤ} (h : b ≤ a) : ∃ N : ℤ, (2 : ℚ) ^ a = (N : ℚ) * (2 : ℚ) ^ b := by
  obtain ⟨k, hk⟩ := Int.eq_ofNat_of_zero_le (sub_nonneg.mpr h)
  refine ⟨2 ^ k, ?_⟩
  have ha : a = (k : ℤ) + b := by omega
  rw [ha, zpow_add₀ (by norm_num : (2 : ℚ) ≠ 0), zpow_natCast]
  push_cast
  rfl

/-- The binary logarithm brackets a non-zero value between two powers of two. -/
theorem log_spec {x : ℚ} (hx : x ≠ 0) :
    (2 : ℚ) ^ Int.log 2 |x| ≤ |x| ∧ |x| < (2 : ℚ) ^ (Int.log 2 |x| + 1) := by
  have h1 := Int.zpow_log_le_self (b := 2) (by norm_num) (abs_pos.mpr hx)
  have h2 := Int.lt_zpow_succ_log_self (b := 2) (by norm_num) |x|
  simpa using And.intro h1 h2

/-- An upper bound by a power of two bounds the logarithm. -/
theorem log_le_of_abs_le {x : ℚ} (hx : x ≠ 0) {k : ℤ} (h : |x| ≤ (2 : ℚ) ^ k) :
    Int.log 2 |x| ≤ k := by
  by_contra hcon
  push_neg at hcon
  have h1 := (log_spec hx).1
  have h2 : (2 : ℚ) ^ k < (2 : ℚ) ^ Int.log 2 |x| := two_zpow_lt hcon
  linarith

/-- A strict upper bound by a power of two bounds the logarithm strictly. -/
theorem log_lt_of_abs_lt {x : ℚ} (hx : x ≠ 0) {k : ℤ} (h : |x| < (2 : ℚ) ^ k) :
    Int.log 2 |x| < k := by
  by_contra hcon
  push_neg at hcon
  have h1 := (log_spec hx).1
  have h2 : (2 : ℚ) ^ k ≤ (2 : ℚ) ^ Int.log 2 |x| := two_zpow_le hcon
  linarith

/-- A lower bound by a power of two bounds the logarithm from below. -/
theorem le_log_of_le_abs {x : ℚ} (hx : x ≠ 0) {k : ℤ} (h : (2 : ℚ) ^ k ≤ |x|) :
    k ≤ Int.log 2 |x| := by
  by_contra hcon
  push_neg at hcon
  have h1 := (log_spec hx).2
  have h2 : (2 : ℚ) ^ (Int.log 2 |x| + 1) ≤ (2 : ℚ) ^ k := two_zpow_le (by omega)
  linarith

/-- The quantum is positive. -/
theorem Format.quantum_pos (F : Format) (x : ℚ) : 0 < F.quantum x := two_zpow_pos _

/-- The exponent used is never below the smallest exponent. -/
theorem Format.emin_le_expo (F : Format) (x : ℚ) : F.emin ≤ F.expo x := le_max_right _ _

/-- Zero rounds to zero. -/
theorem Format.roundQ_zero (F : Format) : F.roundQ 0 = 0 := by
  unfold Format.roundQ
  rw [zero_div]
  have : round_half_even 0 = 0 := by simpa using rhe_intCast 0
  rw [this]; simp

/-- Upper cap: rounding does not cross a multiple of the quantum. -/
theorem Format.roundQ_le_of_le (F : Format) {x c : ℚ} (h : x ≤ c)
    (hc : ∃ N : ℤ, c = (N : ℚ) * F.quantum x) : F.roundQ x ≤ c := by
  obtain ⟨N, hN⟩ := hc
  have hq := F.quantum_pos x
  have h1 : x / F.quantum x ≤ (N : ℚ) := by
    rw [div_le_iff₀ hq, ← hN]; exact h
  have h2 : ((round_half_even (x / F.quantum x) : ℤ) : ℚ) ≤ (N : ℚ) := by
    exact_mod_cast rhe_le_of_le _ N h1
  unfold Format.roundQ
  rw [hN]
  exact mul_le_mul_of_nonneg_right h2 hq.le

/-- Lower cap: rounding does not cross a multiple of the quantum. -/
theorem Format.le_roundQ_of_le (F : Format) {x c : ℚ} (h : c ≤ x)
    (hc : ∃ N : ℤ, c = (N : ℚ) * F.quantum x) : c ≤ F.roundQ x := by
  obtain ⟨N, hN⟩ := hc
  have hq := F.quantum_pos x
  have h1 : (N : ℚ) ≤ x / F.quantum x := by
    rw [le_div_iff₀ hq, ← hN]; exact h
  have h2 : (N : ℚ) ≤ ((round_half_even (x / F.quantum x) : ℤ) : ℚ) := by
    exact_mod_cast le_rhe_of_le _ N h1
  unfold Format.roundQ
  rw [hN]
  exact mul_le_mul_of_nonneg_right h2 hq.le

/-- A non-negative value rounds to a non-negative value. -/
theorem Format.roundQ_nonneg (F : Format) {x : ℚ} (h : 0 ≤ x) : 0 ≤ F.roundQ x :=
  F.le_roundQ_of_le h ⟨0, by simp⟩

/-- A non-positive value rounds to a non-positive value. -/
theorem Format.roundQ_nonpos (F : Format) {x : ℚ} (h : x ≤ 0) : F.roundQ x ≤ 0 :=
  F.roundQ_le_of_le h ⟨0, by simp⟩

/-- A power of two with exponent `k` is a multiple of the quantum of every `x`
with `|x| ≤ 2^k`, as long as `k` is not below the smallest quantum. -/
theorem Format.pow_multiple_quantum (F : Format) (hF : F.Sane) {x : ℚ} {k : ℤ}
    (hx0 : x ≠ 0) (hx : |x| ≤ (2 : ℚ) ^ k) (hk : F.emin ≤ k) :
    ∃ N : ℤ, (2 : ℚ) ^ k = (N : ℚ) * F.quantum x := by
  unfold Format.quantum
  apply two_zpow_multiple
  have hp : (1 : ℤ) ≤ F.prec := by exact_mod_cast hF.1
  have hl := log_le_of_abs_le hx0 hx
  unfold Format.expo
  rcases max_cases (Int.log 2 |x|) F.emin with ⟨h1, _⟩ | ⟨h1, _⟩ <;> rw [h1] <;> omega

/-- Rounding does not push the magnitude above a power of two that bounds it. -/
theorem Format.abs_roundQ_le_pow (F : Format) (hF : F.Sane) {x : ℚ} {k : ℤ}
    (hx : |x| ≤ (2 : ℚ) ^ k) (hk : F.emin ≤ k) : |F.roundQ x| ≤ (2 : ℚ) ^ k := by
  by_cases hx0 : x = 0
  · rw [hx0, F.roundQ_zero, abs_zero]; exact (two_zpow_pos k).le
  obtain ⟨N, hN⟩ := F.pow_multiple_quantum hF hx0 hx hk
  rw [abs_le] at hx ⊢
  constructor
  · exact F.le_roundQ_of_le hx.1 ⟨-N, by rw [hN]; push_cast; ring⟩
  · exact F.roundQ_le_of_le hx.2 ⟨N, hN⟩


/-- The smallest exponent is not above the largest. -/
theorem Format.emin_le_emax (F : Format) (hF : F.Sane) : F.emin ≤ F.emax := by
  have h1 : (1 : ℤ) ≤ F.prec := by exact_mod_cast hF.1
  have h2 := hF.2
  unfold Format.emin; omega

/-- No overflow: a value of magnitude at most `2^emax` rounds to a finite
value. -/
theorem Format.round_eq_finite (F : Format) (hF : F.Sane) {x : ℚ}
    (hx : |x| ≤ (2 : ℚ) ^ F.emax) : F.round x = FloatVal.finite (F.roundQ x) := by
  have h := F.abs_roundQ_le_pow hF hx (F.emin_le_emax hF)
  have hlt : (2 : ℚ) ^ F.emax < (2 : ℚ) ^ (F.emax + 1) := two_zpow_lt (by omega)
  unfold Format.round
  rw [if_neg (by linarith)]

/-- Rounding a value between `0` and a natural number below `2^prec` stays
between them. -/
theorem Format.roundQ_le_nat (F : Format) (hF : F.Sane) {x : ℚ} (K : ℕ)
    (hK : (K : ℚ) < (2 : ℚ) ^ (F.prec : ℤ)) (h0 : 0 ≤ x) (hx : x ≤ K) : F.roundQ x ≤ K := by
  by_cases hx0 : x = 0
  · rw [hx0, F.roundQ_zero]; exact Nat.cast_nonneg K
  apply F.roundQ_le_of_le hx
  have hp : (1 : ℤ) ≤ F.prec := by exact_mod_cast hF.1
  have habs : |x| < (2 : ℚ) ^ (F.prec : ℤ) := by rw [abs_of_nonneg h0]; linarith
  have hl := log_lt_of_abs_lt hx0 habs
  have he : F.expo x - ((F.prec : ℤ) - 1) ≤ 0 := by
    have hmin : F.emin ≤ 0 := by unfold Format.emin; have := hF.2; omega
    unfold Format.expo
    rcases max_cases (Int.log 2 |x|) F.emin with ⟨h1, _⟩ | ⟨h1, _⟩ <;> rw [h1] <;> omega
  obtain ⟨N, hN⟩ := two_zpow_multiple he
  refine ⟨K * N, ?_⟩
  unfold Format.quantum
  rw [zpow_zero] at hN
  push_cast
  rw [mul_assoc, ← hN, mul_one]

/-- The exponent is monotone on the positive rationals. -/
theorem Format.expo_mono (F : Format) {x y : ℚ} (hx : 0 < x) (h : x ≤ y) :
    F.expo x ≤ F.expo y := by
  have hy : 0 < y := lt_of_lt_of_le hx h
  unfold Format.expo
  rw [abs_of_pos hx, abs_of_pos hy]
  exact max_le_max (Int.log_mono_right hx h) le_rfl

/-- Rounding is monotone on the positive rationals. -/
theorem Format.roundQ_mono (F : Format) (hF : F.Sane) {x y : ℚ} (hx : 0 < x) (h : x ≤ y) :
    F.roundQ x ≤ F.roundQ y := by
  have hy : 0 < y := lt_of_lt_of_le hx h
  have hp : (1 : ℤ) ≤ F.prec := by exact_mod_cast hF.1
  rcases lt_or_eq_of_le (F.expo_mono hx h) with hlt | heq
  · -- different binades: the power of two between them separates the results
    have hey : F.expo y = Int.log 2 |y| := by
      have hmin := F.emin_le_expo x
      unfold Format.expo at hlt ⊢
      rcases max_cases (Int.log 2 |y|) F.emin with ⟨h1, _⟩ | ⟨h1, _⟩
      · exact h1
      · rw [h1] at hlt
        have := le_max_right (Int.log 2 |x|) F.emin
        omega
    have hcy : (2 : ℚ) ^ F.expo y ≤ y := by
      rw [hey]; have := (log_spec hy.ne').1; rwa [abs_of_pos hy] at this ⊢
    have hxc : x ≤ (2 : ℚ) ^ F.expo y := by
      have h1 := (log_spec hx.ne').2
      have h2 : Int.log 2 |x| + 1 ≤ F.expo y := by
        have := le_max_left (Int.log 2 |x|) F.emin
        unfold Format.expo at hlt; omega
      have h3 := two_zpow_le (a := Int.log 2 |x| + 1) (b := F.expo y) h2
      have h4 : |x| = x := abs_of_pos hx
      linarith
    have hmx : ∃ N : ℤ, (2 : ℚ) ^ F.expo y = (N : ℚ) * F.quantum x := by
      unfold Format.quantum; exact two_zpow_multiple (by omega)
    have hmy : ∃ N : ℤ, (2 : ℚ) ^ F.expo y = (N : ℚ) * F.quantum y := by
      unfold Format.quantum; exact two_zpow_multiple (by omega)
    exact (F.roundQ_le_of_le hxc hmx).trans (F.le_roundQ_of_le hcy hmy)
  · have hq : F.quantum x = F.quantum y := by unfold Format.quantum; rw [heq]
    unfold Format.roundQ
    rw [hq]
    have hqpos := F.quantum_pos y
    have hdiv : x / F.quantum y ≤ y / F.quantum y := div_le_div_of_nonneg_right h hqpos.le
    have := rhe_mono hdiv
    exact mul_le_mul_of_nonneg_right (by exact_mod_cast this) hqpos.le

/-- Rounding error, relative form: for `|x|` at least the smallest normal
number the error is at most `2^-prec * |x|`. -/
theorem Format.roundQ_rel_error (F : Format) {x : ℚ} (hx : (2 : ℚ) ^ F.emin ≤ |x|) :
    |F.roundQ x - x| ≤ |x| / (2 : ℚ) ^ (F.prec : ℤ) := by
  have hx0 : x ≠ 0 := by
    intro h; rw [h, abs_zero] at hx; exact absurd hx (not_le.mpr (two_zpow_pos _))
  have hq := F.quantum_pos x
  have hexp : F.expo x = Int.log 2 |x| := by
    unfold Format.expo
    exact max_eq_left (le_log_of_le_abs hx0 hx)
  have h1 : F.roundQ x - x = ((round_half_even (x / F.quantum x) : ℚ) - x / F.quantum x)
      * F.quantum x := by
    unfold Format.roundQ; field_simp
  have h2 := rhe_abs_sub_le (x / F.quantum x)
  have h3 : |F.roundQ x - x| ≤ 1 / 2 * F.quantum x := by
    rw [h1, abs_mul, abs_of_pos hq]
    exact mul_le_mul_of_nonneg_right h2 hq.le
  have h4 : 1 / 2 * F.quantum x = (2 : ℚ) ^ Int.log 2 |x| / (2 : ℚ) ^ (F.prec : ℤ) := by
    unfold Format.quantum
    rw [hexp, ← zpow_sub₀ (by norm_num : (2 : ℚ) ≠ 0)]
    have : Int.log 2 |x| - ((F.prec : ℤ) - 1) = (Int.log 2 |x| - (F.prec : ℤ)) + 1 := by ring
    rw [this, zpow_add₀ (by norm_num : (2 : ℚ) ≠ 0), zpow_one]
    ring
  rw [h4] at h3
  exact h3.trans (div_le_div_of_nonneg_right (log_spec hx0).1 (two_zpow_pos _).le)

/-- Rounding error, general form: relative error `2^-prec` plus half the
smallest quantum. -/
theorem Format.roundQ_abs_error (F : Format) (x : ℚ) :
    |F.roundQ x - x| ≤ |x| / (2 : ℚ) ^ (F.prec : ℤ) + (2 : ℚ) ^ (F.emin - (F.prec : ℤ)) := by
  by_cases hx : (2 : ℚ) ^ F.emin ≤ |x|
  · have := F.roundQ_rel_error hx
    have := two_zpow_pos (F.emin - (F.prec : ℤ))
    linarith
  · push_neg at hx
    have hq := F.quantum_pos x
    have hnn : 0 ≤ |x| / (2 : ℚ) ^ (F.prec : ℤ) := div_nonneg (abs_nonneg _) (two_zpow_pos _).le
    by_cases hx0 : x = 0
    · rw [hx0, F.roundQ_zero]; simp; exact (two_zpow_pos _).le
    have hexp : F.expo x = F.emin := by
      unfold Format.expo
      exact max_eq_right (le_of_lt (log_lt_of_abs_lt hx0 hx))
    have h1 : F.roundQ x - x = ((round_half_even (x / F.quantum x) : ℚ) - x / F.quantum x)
        * F.quantum x := by
      unfold Format.roundQ; field_simp
    have h2 := rhe_abs_sub_le (x / F.quantum x)
    have h3 : |F.roundQ x - x| ≤ 1 / 2 * F.quantum x := by
      rw [h1, abs_mul, abs_of_pos hq]
      exact mul_le_mul_of_nonneg_right h2 hq.le
    have h4 : 1 / 2 * F.quantum x = (2 : ℚ) ^ (F.emin - (F.prec : ℤ)) := by
      unfold Format.quantum
      rw [hexp]
      have : F.emin - ((F.prec : ℤ) - 1) = (F.emin - (F.prec : ℤ)) + 1 := by ring
      rw [this, zpow_add₀ (by norm_num : (2 : ℚ) ≠ 0), zpow_one]
      ring
    rw [h4] at h3
    linarith


/-- A value strictly within one half of an integer rounds to it. -/
theorem rhe_eq_of_near {x : ℚ} (n : ℤ) (h1 : (n : ℚ) - 1 / 2 < x) (h2 : x < (n : ℚ) + 1 / 2) :
    round_half_even x = n := by
  have hf1 := Int.floor_le x
  have hf2 := Int.lt_floor_add_one x
  have hfl : ⌊x⌋ = n ∨ ⌊x⌋ = n - 1 := by
    have ha : ((⌊x⌋ : ℤ) : ℚ) < (n : ℚ) + 1 := by linarith
    have hb : (n : ℚ) - 2 < ((⌊x⌋ : ℤ) : ℚ) := by linarith
    have ha' : ⌊x⌋ < n + 1 := by exact_mod_cast ha
    have hb' : n - 2 < ⌊x⌋ := by exact_mod_cast hb
    omega
  unfold round_half_even
  rcases hfl with hfl | hfl <;> rw [hfl] <;> push_cast <;> split_ifs <;>
    first | omega | (exfalso; linarith)

/-- A tie above an odd integer rounds up, to the even neighbour. -/
theorem rhe_tie_odd {x : ℚ} (f : ℤ) (hx : x = (f : ℚ) + 1 / 2) (hodd : f % 2 = 1) :
    round_half_even x = f + 1 := by
  have hfl : ⌊x⌋ = f := by
    rw [Int.floor_eq_iff]; constructor <;> rw [hx] <;> linarith
  unfold round_half_even
  rw [hfl, hx]
  norm_num
  omega

/-- A tie above an even integer rounds down, to that integer. -/
theorem rhe_tie_even {x : ℚ} (f : ℤ) (hx : x = (f : ℚ) + 1 / 2) (heven : f % 2 = 0) :
    round_half_even x = f := by
  have hfl : ⌊x⌋ = f := by
    rw [Int.floor_eq_iff]; constructor <;> rw [hx] <;> linarith
  unfold round_half_even
  rw [hfl, hx]
  norm_num
  omega

/-- Evaluation of the rounding once the binade of `x` is known. -/
theorem Format.roundQ_eq_of_expo (F : Format) {x : ℚ} (e : ℤ) (h1 : (2 : ℚ) ^ e ≤ |x|)
    (h2 : |x| < (2 : ℚ) ^ (e + 1)) (he : F.emin ≤ e) :
    F.roundQ x = (round_half_even (x / (2 : ℚ) ^ (e - ((F.prec : ℤ) - 1))) : ℚ)
      * (2 : ℚ) ^ (e - ((F.prec : ℤ) - 1)) := by
  have hx0 : x ≠ 0 := by
    intro h; rw [h, abs_zero] at h1; exact absurd h1 (not_le.mpr (two_zpow_pos _))
  have hlog : Int.log 2 |x| = e := by
    have ha := le_log_of_le_abs hx0 h1
    have hb := log_lt_of_abs_lt hx0 h2
    omega
  have hexp : F.expo x = e := by
    unfold Format.expo; rw [hlog]; exact max_eq_left he
  unfold Format.roundQ Format.quantum
  rw [hexp]

/-- A value `m * 2^k` with `|m| < 2^prec` and `k` not below the smallest
quantum is representable: rounding leaves it unchanged. -/
theorem Format.roundQ_repr (F : Format) (m k : ℤ) (hm : |(m : ℚ)| < (2 : ℚ) ^ (F.prec : ℤ))
    (hk : F.emin - ((F.prec : ℤ) - 1) ≤ k) :
    F.roundQ ((m : ℚ) * (2 : ℚ) ^ k) = (m : ℚ) * (2 : ℚ) ^ k := by
  by_cases hm0 : m = 0
  · rw [hm0]; simp [F.roundQ_zero]
  generalize hxdef : (m : ℚ) * (2 : ℚ) ^ k = x
  have hx0 : x ≠ 0 := by
    rw [← hxdef]; exact mul_ne_zero (by exact_mod_cast hm0) (two_zpow_pos k).ne'
  have habs : |x| < (2 : ℚ) ^ ((F.prec : ℤ) + k) := by
    rw [← hxdef, abs_mul, abs_of_pos (two_zpow_pos k), zpow_add₀ (by norm_num : (2 : ℚ) ≠ 0)]
    exact mul_lt_mul_of_pos_right hm (two_zpow_pos k)
  have hl := log_lt_of_abs_lt hx0 habs
  have he : F.expo x - ((F.prec : ℤ) - 1) ≤ k := by
    unfold Format.expo
    rcases max_cases (Int.log 2 |x|) F.emin with ⟨h1, _⟩ | ⟨h1, _⟩ <;> rw [h1] <;> omega
  obtain ⟨N, hN⟩ := two_zpow_multiple he
  have hq := F.quantum_pos x
  have hxq : x = ((m * N : ℤ) : ℚ) * F.quantum x := by
    have h1 : x = (m : ℚ) * ((N : ℚ) * (2 : ℚ) ^ (F.expo x - ((F.prec : ℤ) - 1))) := by
      rw [← hN]; exact hxdef.symm
    unfold Format.quantum
    rw [Int.cast_mul, mul_assoc]
    exact h1
  have hdiv : x / F.quantum x = ((m * N : ℤ) : ℚ) := by
    rw [div_eq_iff hq.ne']; exact hxq
  unfold Format.roundQ
  rw [hdiv, rhe_intCast]
  exact hxq.symm

/-- Integers of magnitude below `2^prec` are representable. -/
theorem Format.roundQ_int (F : Format) (hF : F.Sane) (m : ℤ)
    (hm : |(m : ℚ)| < (2 : ℚ) ^ (F.prec : ℤ)) : F.roundQ (m : ℚ) = m := by
  have h := F.roundQ_repr m 0 hm (by
    have h1 : (1 : ℤ) ≤ F.prec := by exact_mod_cast hF.1
    have h2 := hF.2
    unfold Format.emin; omega)
  simpa using h

/-- The result of an unsigned subtraction is an unsigned long value. -/
theorem usub_lt (a b : Nat) : usub a b < ULONG_MOD :=
  Nat.mod_lt _ (by unfold ULONG_MOD; norm_num)

/-- No overflow in binary32 for magnitudes up to two to the 127. -/
theorem binary32_round_finite {x : ℚ} (hx : |x| ≤ (2 : ℚ) ^ (127 : ℤ)) :
    binary32.round x = FloatVal.finite (binary32.roundQ x) :=
  binary32.round_eq_finite binary32_sane hx

/-- No overflow in binary64 for magnitudes up to two to the 1023. -/
theorem binary64_round_finite {x : ℚ} (hx : |x| ≤ (2 : ℚ) ^ (1023 : ℤ)) :
    binary64.round x = FloatVal.finite (binary64.roundQ x) :=
  binary64.round_eq_finite binary64_sane hx

/-- One is a binary32 number. -/
theorem binary32_roundQ_one : binary32.roundQ 1 = 1 := by
  simpa using binary32.roundQ_int binary32_sane 1 (by norm_num [binary32])

/-- The conversion `(float) n` of an `unsigned long` is finite, at most `2^64`
and, for `n ≥ 1`, at least `1`. -/
theorem ofULong_bounds (n : Nat) (hn : n < ULONG_MOD) :
    0 ≤ binary32.roundQ (n : ℚ) ∧ binary32.roundQ (n : ℚ) ≤ (2 : ℚ) ^ (64 : ℤ) ∧
      (1 ≤ n → 1 ≤ binary32.roundQ (n : ℚ)) := by
  have hn0 : (0 : ℚ) ≤ (n : ℚ) := Nat.cast_nonneg n
  have hle : |(n : ℚ)| ≤ (2 : ℚ) ^ (64 : ℤ) := by
    rw [abs_of_nonneg hn0]
    have h : (n : ℚ) < ((2 ^ 64 : ℕ) : ℚ) := by exact_mod_cast hn
    have h2 : ((2 ^ 64 : ℕ) : ℚ) = (2 : ℚ) ^ (64 : ℤ) := by norm_num
    linarith
  refine ⟨binary32.roundQ_nonneg hn0, ?_, ?_⟩
  · exact (le_abs_self _).trans
      (binary32.abs_roundQ_le_pow binary32_sane hle (by unfold Format.emin binary32; norm_num))
  · intro h1
    have h1' : (1 : ℚ) ≤ (n : ℚ) := by exact_mod_cast h1
    have := binary32.roundQ_mono binary32_sane (by norm_num : (0 : ℚ) < 1) h1'
    rwa [binary32_roundQ_one] at this

/-- Two to the 64 is within the binary32 range. -/
theorem pow64_le_pow127 : (2 : ℚ) ^ (64 : ℤ) ≤ (2 : ℚ) ^ (127 : ℤ) := two_zpow_le (by norm_num)

/-- An unsigned long value has magnitude at most two to the 64. -/
theorem natCast_abs_le (n : Nat) (hn : n < ULONG_MOD) : |(n : ℚ)| ≤ (2 : ℚ) ^ (64 : ℤ) := by
  rw [abs_of_nonneg (Nat.cast_nonneg n)]
  have h : (n : ℚ) < ((2 ^ 64 : ℕ) : ℚ) := by exact_mod_cast hn
  have h2 : ((2 ^ 64 : ℕ) : ℚ) = (2 : ℚ) ^ (64 : ℤ) := by norm_num
  linarith

/-- For `unsigned long` arguments with `dt ≠ 0` every intermediate result of
the return expression is finite, and its value is `usage_value di dt`. -/
theorem usage_expr_finite (di dt : Nat) (hdi : di < ULONG_MOD) (hdt : dt < ULONG_MOD)
    (hne : dt ≠ 0) :
    FloatVal.toFloat
      (FloatVal.mul64
        (FloatVal.sub64 (FloatVal.finite 1)
          (FloatVal.div32 (FloatVal.ofULong di) (FloatVal.ofULong dt)))
        (FloatVal.finite 100)) = FloatVal.finite (usage_value di dt) := by
  have hi := ofULong_bounds di hdi
  have ht := ofULong_bounds dt hdt
  have hb1 : 1 ≤ binary32.roundQ (dt : ℚ) := ht.2.2 (Nat.one_le_iff_ne_zero.mpr hne)
  have hb0 : binary32.roundQ (dt : ℚ) ≠ 0 := by linarith
  have hw0 : 0 ≤ binary32.roundQ (di : ℚ) / binary32.roundQ (dt : ℚ) :=
    div_nonneg hi.1 (by linarith)
  have hw : binary32.roundQ (di : ℚ) / binary32.roundQ (dt : ℚ) ≤ (2 : ℚ) ^ (64 : ℤ) := by
    rw [div_le_iff₀ (by linarith)]
    have : (0 : ℚ) ≤ (2 : ℚ) ^ (64 : ℤ) := (two_zpow_pos _).le
    nlinarith [hi.2.1]
  have hwabs : |binary32.roundQ (di : ℚ) / binary32.roundQ (dt : ℚ)| ≤ (2 : ℚ) ^ (64 : ℤ) := by
    rwa [abs_of_nonneg hw0]
  have hqabs := binary32.abs_roundQ_le_pow binary32_sane hwabs
    (by unfold Format.emin binary32; norm_num)
  have h65 : (2 : ℚ) ^ (65 : ℤ) = 2 * (2 : ℚ) ^ (64 : ℤ) := by norm_num
  have h1 : (1 : ℚ) ≤ (2 : ℚ) ^ (64 : ℤ) := by norm_num
  have hdabs : |1 - binary32.roundQ (binary32.roundQ (di : ℚ) / binary32.roundQ (dt : ℚ))|
      ≤ (2 : ℚ) ^ (65 : ℤ) := by
    rw [h65]
    have := abs_sub (1 : ℚ) (binary32.roundQ (binary32.roundQ (di : ℚ) / binary32.roundQ (dt : ℚ)))
    rw [abs_one] at this
    linarith
  have hsabs := binary64.abs_roundQ_le_pow binary64_sane hdabs
    (by unfold Format.emin binary64; norm_num)
  have hpabs : |binary64.roundQ
      (1 - binary32.roundQ (binary32.roundQ (di : ℚ) / binary32.roundQ (dt : ℚ))) * 100|
      ≤ (2 : ℚ) ^ (72 : ℤ) := by
    rw [abs_mul]
    have h72 : (2 : ℚ) ^ (72 : ℤ) = (2 : ℚ) ^ (65 : ℤ) * 128 := by norm_num
    rw [h72]
    have : |(100 : ℚ)| = 100 := abs_of_pos (by norm_num)
    rw [this]
    nlinarith [abs_nonneg (binary64.roundQ
      (1 - binary32.roundQ (binary32.roundQ (di : ℚ) / binary32.roundQ (dt : ℚ))))]
  have hzabs := binary64.abs_roundQ_le_pow binary64_sane hpabs
    (by unfold Format.emin binary64; norm_num)
  have e1 : FloatVal.ofULong di = FloatVal.finite (binary32.roundQ (di : ℚ)) :=
    binary32_round_finite ((natCast_abs_le di hdi).trans pow64_le_pow127)
  have e2 : FloatVal.ofULong dt = FloatVal.finite (binary32.roundQ (dt : ℚ)) :=
    binary32_round_finite ((natCast_abs_le dt hdt).trans pow64_le_pow127)
  have e3 : FloatVal.div32 (FloatVal.finite (binary32.roundQ (di : ℚ)))
      (FloatVal.finite (binary32.roundQ (dt : ℚ))) =
      FloatVal.finite (binary32.roundQ (binary32.roundQ (di : ℚ) / binary32.roundQ (dt : ℚ))) := by
    simp only [FloatVal.div32, FloatVal.divExact, if_neg hb0, FloatVal.round]
    exact binary32_round_finite (hwabs.trans pow64_le_pow127)
  rw [e1, e2, e3]
  have e4 : FloatVal.sub64 (FloatVal.finite 1) (FloatVal.finite
      (binary32.roundQ (binary32.roundQ (di : ℚ) / binary32.roundQ (dt : ℚ)))) =
      FloatVal.finite (binary64.roundQ
        (1 - binary32.roundQ (binary32.roundQ (di : ℚ) / binary32.roundQ (dt : ℚ)))) :=
    binary64_round_finite (hdabs.trans (two_zpow_le (by norm_num)))
  rw [e4]
  have e5 : FloatVal.mul64 (FloatVal.finite (binary64.roundQ
      (1 - binary32.roundQ (binary32.roundQ (di : ℚ) / binary32.roundQ (dt : ℚ)))))
      (FloatVal.finite 100) =
      FloatVal.finite (binary64.roundQ (binary64.roundQ
        (1 - binary32.roundQ (binary32.roundQ (di : ℚ) / binary32.roundQ (dt : ℚ))) * 100)) :=
    binary64_round_finite (hpabs.trans (two_zpow_le (by norm_num)))
  rw [e5]
  exact binary32_round_finite (hzabs.trans (two_zpow_le (by norm_num)))

/-- With `diff_total ≠ 0` the call returns the finite value
`usage_value diff_idle diff_total` and stores `(total, idle)`. -/
theorem cpu_usage_finite (c : RawCpu) (st : CpuState) (hne : diff_total c st ≠ 0) :
    get_cpu_usage (some c) st =
      (FloatVal.finite (usage_value (diff_idle c st) (diff_total c st)),
        ⟨cpu_total c, c.idle⟩) := by
  have h := usage_expr_finite (diff_idle c st) (diff_total c st) (usub_lt _ _) (usub_lt _ _) hne
  simp only [get_cpu_usage, h]


/-- The value of the return expression stays in `[0, 100]` when
`di ≤ dt` and `dt > 0`. -/
theorem usage_value_range (di dt : Nat) (hdi : di < ULONG_MOD) (hdt : dt < ULONG_MOD)
    (hle : di ≤ dt) (hpos : 0 < dt) : 0 ≤ usage_value di dt ∧ usage_value di dt ≤ 100 := by
  have hi := ofULong_bounds di hdi
  have ht := ofULong_bounds dt hdt
  have hb1 : 1 ≤ binary32.roundQ (dt : ℚ) := ht.2.2 hpos
  have hab : binary32.roundQ (di : ℚ) ≤ binary32.roundQ (dt : ℚ) := by
    rcases Nat.eq_zero_or_pos di with h0 | h0
    · rw [h0, Nat.cast_zero, binary32.roundQ_zero]; linarith
    · exact binary32.roundQ_mono binary32_sane (by exact_mod_cast h0) (by exact_mod_cast hle)
  have hw0 : 0 ≤ binary32.roundQ (di : ℚ) / binary32.roundQ (dt : ℚ) :=
    div_nonneg hi.1 (by linarith)
  have hw1 : binary32.roundQ (di : ℚ) / binary32.roundQ (dt : ℚ) ≤ ((1 : ℕ) : ℚ) := by
    rw [Nat.cast_one, div_le_one (by linarith)]; exact hab
  have hq0 := binary32.roundQ_nonneg hw0
  have hq1 := binary32.roundQ_le_nat binary32_sane 1 (by norm_num [binary32]) hw0 hw1
  rw [Nat.cast_one] at hq1
  have hd0 : 0 ≤ 1 - binary32.roundQ (binary32.roundQ (di : ℚ) / binary32.roundQ (dt : ℚ)) := by
    linarith
  have hd1 : 1 - binary32.roundQ (binary32.roundQ (di : ℚ) / binary32.roundQ (dt : ℚ))
      ≤ ((1 : ℕ) : ℚ) := by rw [Nat.cast_one]; linarith
  have hs0 := binary64.roundQ_nonneg hd0
  have hs1 := binary64.roundQ_le_nat binary64_sane 1 (by norm_num [binary64]) hd0 hd1
  rw [Nat.cast_one] at hs1
  have hp0 : 0 ≤ binary64.roundQ
      (1 - binary32.roundQ (binary32.roundQ (di : ℚ) / binary32.roundQ (dt : ℚ))) * 100 := by
    linarith
  have hp1 : binary64.roundQ
      (1 - binary32.roundQ (binary32.roundQ (di : ℚ) / binary32.roundQ (dt : ℚ))) * 100
      ≤ ((100 : ℕ) : ℚ) := by push_cast; linarith
  have hz0 := binary64.roundQ_nonneg hp0
  have hz1 := binary64.roundQ_le_nat binary64_sane 100 (by norm_num [binary64]) hp0 hp1
  have hr0 := binary32.roundQ_nonneg hz0
  have hr1 := binary32.roundQ_le_nat binary32_sane 100 (by norm_num [binary32]) hz0 hz1
  unfold usage_value
  exact ⟨hr0, by exact_mod_cast hr1⟩

/-- Accumulated rounding error of five roundings with unit roundoff `2^-24`:
pure arithmetic over the rationals. -/
theorem rounding_chain (n d a b q s z r t : ℚ) (ht : t ≤ 1 / 2 ^ 40)
    (hn : 0 ≤ n) (hd : 1 ≤ d) (hb1 : 1 ≤ b)
    (ha : |a - n| ≤ n / 2 ^ 24) (hb : |b - d| ≤ d / 2 ^ 24)
    (hq : |q - a / b| ≤ |a / b| / 2 ^ 24 + t)
    (hs : |s - (1 - q)| ≤ |1 - q| / 2 ^ 24 + t)
    (hz : |z - s * 100| ≤ |s * 100| / 2 ^ 24 + t)
    (hr : |r - z| ≤ |z| / 2 ^ 24 + t) :
    |r - (1 - n / d) * 100| ≤ (1 + n / d) * 100 / 2 ^ 20 := by
  have hd0 : 0 < d := by linarith
  have hb0 : 0 < b := by linarith
  obtain ⟨x, hx⟩ : ∃ x, x = n / d := ⟨_, rfl⟩
  obtain ⟨w, hw⟩ : ∃ w, w = a / b := ⟨_, rfl⟩
  rw [← hx]
  rw [← hw] at hq
  have hxd : x * d = n := by rw [hx]; field_simp
  have hwb : w * b = a := by rw [hw]; field_simp
  have hx0 : 0 ≤ x := by rw [hx]; exact div_nonneg hn hd0.le
  rw [abs_le] at ha hb
  -- step 1: the quotient of the converted counters
  have hwx : |w - x| ≤ 3 * x / 2 ^ 24 := by
    have hkey : |(w - x) * (b * d)| ≤ 3 * x / 2 ^ 24 * (b * d) := by
      have e : (w - x) * (b * d) = (a - n) * d - n * (b - d) := by
        rw [← hwb, ← hxd]; ring
      have e2 : 3 * x / 2 ^ 24 * (b * d) = 3 * (n * b) / 2 ^ 24 := by rw [← hxd]; ring
      rw [e, e2, abs_le]
      have p1 : (a - n) * d ≤ n / 2 ^ 24 * d := mul_le_mul_of_nonneg_right ha.2 hd0.le
      have p2 : -(n / 2 ^ 24) * d ≤ (a - n) * d := mul_le_mul_of_nonneg_right ha.1 hd0.le
      have p3 : n * (b - d) ≤ n * (d / 2 ^ 24) := mul_le_mul_of_nonneg_left hb.2 hn
      have p4 : n * -(d / 2 ^ 24) ≤ n * (b - d) := mul_le_mul_of_nonneg_left hb.1 hn
      have p5 : n * (d * (1 - 1 / 2 ^ 24)) ≤ n * b :=
        mul_le_mul_of_nonneg_left (by linarith [hb.1]) hn
      have hnd : 0 ≤ n * d := mul_nonneg hn hd0.le
      constructor <;> linarith
    have hbd : 0 < b * d := mul_pos hb0 hd0
    rw [abs_mul, abs_of_pos hbd] at hkey
    exact le_of_mul_le_mul_right hkey hbd
  rw [abs_le] at hwx
  have hwabs : |w| ≤ 2 * x := by
    rw [abs_le]; constructor <;> linarith [hwx.1, hwx.2]
  -- step 2: the rounded quotient
  have hqx : |q - x| ≤ 5 * x / 2 ^ 24 + t := by
    rw [abs_le] at hq ⊢
    constructor <;> linarith [hq.1, hq.2, hwx.1, hwx.2]
  rw [abs_le] at hqx
  have h1q : |1 - q| ≤ 2 * (1 + x) := by
    rw [abs_le]; constructor <;> linarith [hqx.1, hqx.2]
  -- step 3: the difference
  have hsx : |s - (1 - x)| ≤ 7 * (1 + x) / 2 ^ 24 + 2 * t := by
    rw [abs_le] at hs ⊢
    constructor <;> linarith [hs.1, hs.2, hqx.1, hqx.2]
  rw [abs_le] at hsx
  have hsabs : |s * 100| ≤ 300 * (1 + x) := by
    rw [abs_le]; constructor <;> linarith [hsx.1, hsx.2]
  -- step 4: the product
  have hzx : |z - (1 - x) * 100| ≤ 1000 * (1 + x) / 2 ^ 24 + 201 * t := by
    rw [abs_le] at hz ⊢
    constructor <;> linarith [hz.1, hz.2, hsx.1, hsx.2]
  rw [abs_le] at hzx
  have hzabs : |z| ≤ 200 * (1 + x) := by
    rw [abs_le]; constructor <;> linarith [hzx.1, hzx.2]
  -- step 5: the conversion of the result
  rw [abs_le] at hr ⊢
  constructor <;> linarith [hr.1, hr.2, hzx.1, hzx.2]


/-- Rounding error of binary32: relative part and subnormal part. -/
theorem binary32_error (x : ℚ) :
    |binary32.roundQ x - x| ≤ |x| / 2 ^ 24 + (2 : ℚ) ^ (-150 : ℤ) := by
  have h := binary32.roundQ_abs_error x
  have e1 : (2 : ℚ) ^ ((binary32.prec : ℕ) : ℤ) = 2 ^ 24 := by norm_num [binary32]
  have e2 : binary32.emin - ((binary32.prec : ℕ) : ℤ) = -150 := by
    unfold Format.emin binary32; norm_num
  rwa [e1, e2] at h

/-- Rounding error of binary64, bounded by that of binary32. -/
theorem binary64_error (x : ℚ) :
    |binary64.roundQ x - x| ≤ |x| / 2 ^ 24 + (2 : ℚ) ^ (-150 : ℤ) := by
  have h := binary64.roundQ_abs_error x
  have e1 : (2 : ℚ) ^ ((binary64.prec : ℕ) : ℤ) = 2 ^ 53 := by norm_num [binary64]
  have e2 : binary64.emin - ((binary64.prec : ℕ) : ℤ) = -1075 := by
    unfold Format.emin binary64; norm_num
  rw [e1, e2] at h
  have h1 : |x| / 2 ^ 53 ≤ |x| / 2 ^ 24 :=
    div_le_div_of_nonneg_left (abs_nonneg x) (by norm_num) (by norm_num)
  have h2 : (2 : ℚ) ^ (-1075 : ℤ) ≤ (2 : ℚ) ^ (-150 : ℤ) := two_zpow_le (by norm_num)
  linarith

/-- Relative error of the conversion of an unsigned integer to float. -/
theorem binary32_nat_error (n : Nat) :
    |binary32.roundQ (n : ℚ) - n| ≤ (n : ℚ) / 2 ^ 24 := by
  rcases Nat.eq_zero_or_pos n with h0 | h0
  · rw [h0, Nat.cast_zero, binary32.roundQ_zero]; simp
  · have h1 : (1 : ℚ) ≤ (n : ℚ) := by exact_mod_cast h0
    have hmin : (2 : ℚ) ^ binary32.emin ≤ |(n : ℚ)| := by
      rw [abs_of_nonneg (by linarith)]
      have : (2 : ℚ) ^ binary32.emin ≤ (2 : ℚ) ^ (0 : ℤ) :=
        two_zpow_le (by unfold Format.emin binary32; norm_num)
      rw [zpow_zero] at this
      linarith
    have h := binary32.roundQ_rel_error hmin
    have e1 : (2 : ℚ) ^ ((binary32.prec : ℕ) : ℤ) = 2 ^ 24 := by norm_num [binary32]
    rwa [e1, abs_of_nonneg (by linarith : (0 : ℚ) ≤ (n : ℚ))] at h

/-- The value returned differs from the exact `(1 - di/dt) * 100` by at most
`(1 + di/dt) * 100 / 2^20`. -/
theorem usage_value_error (di dt : Nat) (hdt : dt < ULONG_MOD) (hne : dt ≠ 0) :
    |usage_value di dt - (1 - (di : ℚ) / (dt : ℚ)) * 100| ≤
      (1 + (di : ℚ) / (dt : ℚ)) * 100 / 2 ^ 20 := by
  have hpos : (1 : ℚ) ≤ (dt : ℚ) := by exact_mod_cast Nat.one_le_iff_ne_zero.mpr hne
  have hb1 : 1 ≤ binary32.roundQ (dt : ℚ) := (ofULong_bounds dt hdt).2.2
    (Nat.one_le_iff_ne_zero.mpr hne)
  have ht : (2 : ℚ) ^ (-150 : ℤ) ≤ 1 / 2 ^ 40 := by
    have h := two_zpow_le (a := -150) (b := -40) (by norm_num)
    have e : (2 : ℚ) ^ (-40 : ℤ) = 1 / 2 ^ 40 := by norm_num
    rwa [e] at h
  exact rounding_chain (di : ℚ) (dt : ℚ) (binary32.roundQ (di : ℚ)) (binary32.roundQ (dt : ℚ))
    _ _ _ _ ((2 : ℚ) ^ (-150 : ℤ)) ht (Nat.cast_nonneg di) hpos hb1
    (binary32_nat_error di) (binary32_nat_error dt)
    (binary32_error _) (binary64_error _) (binary64_error _) (binary32_error _)


/-- Exponents from -126 on are in the binary32 range. -/
theorem binary32_emin_le (e : ℤ) (h : -126 ≤ e) : binary32.emin ≤ e := by
  unfold Format.emin binary32; simpa using h

/-- Exponents from -1022 on are in the binary64 range. -/
theorem binary64_emin_le (e : ℤ) (h : -1022 ≤ e) : binary64.emin ≤ e := by
  unfold Format.emin binary64; simpa using h

/-- Integers of magnitude below two to the 24 are binary32 numbers. -/
theorem binary32_roundQ_small_int (m : ℤ) (hm : |(m : ℚ)| < 2 ^ 24) :
    binary32.roundQ (m : ℚ) = m :=
  binary32.roundQ_int binary32_sane m (by norm_num [binary32]; exact hm)

/-- Integers of magnitude below two to the 53 are binary64 numbers. -/
theorem binary64_roundQ_small_int (m : ℤ) (hm : |(m : ℚ)| < 2 ^ 53) :
    binary64.roundQ (m : ℚ) = m :=
  binary64.roundQ_int binary64_sane m (by norm_num [binary64]; exact hm)

/-- The return expression on `diff_idle = 10`, `diff_total = 5`. -/
theorem usage_value_10_5 : usage_value 10 5 = -100 := by
  have h10 : binary32.roundQ (10 : ℚ) = 10 := by
    simpa using binary32_roundQ_small_int 10 (by norm_num [abs_of_pos])
  have h5 : binary32.roundQ (5 : ℚ) = 5 := by
    simpa using binary32_roundQ_small_int 5 (by norm_num [abs_of_pos])
  have h2 : binary32.roundQ (2 : ℚ) = 2 := by
    simpa using binary32_roundQ_small_int 2 (by norm_num [abs_of_pos])
  have hm1 : binary64.roundQ (-1 : ℚ) = -1 := by
    simpa using binary64_roundQ_small_int (-1) (by norm_num)
  have hm100 : binary64.roundQ (-100 : ℚ) = -100 := by
    simpa using binary64_roundQ_small_int (-100) (by norm_num [abs_of_pos])
  have hr : binary32.roundQ (-100 : ℚ) = -100 := by
    simpa using binary32_roundQ_small_int (-100) (by norm_num [abs_of_pos])
  unfold usage_value
  push_cast
  rw [h10, h5, show (10 : ℚ) / 5 = 2 by norm_num, h2, show (1 : ℚ) - 2 = -1 by norm_num, hm1,
    show (-1 : ℚ) * 100 = -100 by norm_num, hm100, hr]

/-- The return expression on `diff_idle = 850`, `diff_total = 1000`: the
binary32 quotient is `0.85f = 7130317/8388608`, and the result
`7864319/524288 = 14.99999809...`. -/
theorem usage_value_850_1000 : usage_value 850 1000 = 7864319 / 524288 := by
  have h850 : binary32.roundQ (850 : ℚ) = 850 := by
    simpa using binary32_roundQ_small_int 850 (by norm_num [abs_of_pos])
  have h1000 : binary32.roundQ (1000 : ℚ) = 1000 := by
    simpa using binary32_roundQ_small_int 1000 (by norm_num [abs_of_pos])
  have hq : binary32.roundQ (17 / 20 : ℚ) = 7130317 / 8388608 := by
    rw [binary32.roundQ_eq_of_expo (-1) (by norm_num [abs_of_pos]) (by norm_num [abs_of_pos])
      (binary32_emin_le _ (by norm_num))]
    rw [rhe_eq_of_near 14260634 (by norm_num [binary32]) (by norm_num [binary32])]
    norm_num [binary32]
  have hs : binary64.roundQ (1258291 / 8388608 : ℚ) = 1258291 / 8388608 := by
    have h := binary64.roundQ_repr 1258291 (-23) (by norm_num [binary64, abs_of_pos])
      (by unfold Format.emin binary64; norm_num)
    have e : ((1258291 : ℤ) : ℚ) * (2 : ℚ) ^ (-23 : ℤ) = 1258291 / 8388608 := by norm_num
    rwa [e] at h
  have hz : binary64.roundQ (31457275 / 2097152 : ℚ) = 31457275 / 2097152 := by
    have h := binary64.roundQ_repr 31457275 (-21) (by norm_num [binary64, abs_of_pos])
      (by unfold Format.emin binary64; norm_num)
    have e : ((31457275 : ℤ) : ℚ) * (2 : ℚ) ^ (-21 : ℤ) = 31457275 / 2097152 := by norm_num
    rwa [e] at h
  have hr : binary32.roundQ (31457275 / 2097152 : ℚ) = 7864319 / 524288 := by
    rw [binary32.roundQ_eq_of_expo 3 (by norm_num [abs_of_pos]) (by norm_num [abs_of_pos])
      (binary32_emin_le _ (by norm_num))]
    rw [rhe_tie_odd 15728637 (by norm_num [binary32]) (by norm_num)]
    norm_num [binary32]
  unfold usage_value
  push_cast
  rw [h850, h1000, show (850 : ℚ) / 1000 = 17 / 20 by norm_num, hq,
    show (1 : ℚ) - 7130317 / 8388608 = 1258291 / 8388608 by norm_num, hs,
    show (1258291 / 8388608 : ℚ) * 100 = 31457275 / 2097152 by norm_num, hz, hr]

/-- The return expression on `diff_idle = 2^64 - 10`, `diff_total = 20`. -/
theorem usage_value_wrapped :
    usage_value 18446744073709551606 20 = -92233720368547758080 := by
  have ha : binary32.roundQ (18446744073709551606 : ℚ) = 18446744073709551616 := by
    rw [binary32.roundQ_eq_of_expo 63 (by norm_num [abs_of_pos]) (by norm_num [abs_of_pos])
      (binary32_emin_le _ (by norm_num))]
    rw [rhe_eq_of_near 16777216 (by norm_num [binary32]) (by norm_num [binary32])]
    norm_num [binary32]
  have hb : binary32.roundQ (20 : ℚ) = 20 := by
    simpa using binary32_roundQ_small_int 20 (by norm_num [abs_of_pos])
  have hq : binary32.roundQ (4611686018427387904 / 5 : ℚ) = 922337217429372928 := by
    rw [binary32.roundQ_eq_of_expo 59 (by norm_num [abs_of_pos]) (by norm_num [abs_of_pos])
      (binary32_emin_le _ (by norm_num))]
    rw [rhe_eq_of_near 13421773 (by norm_num [binary32]) (by norm_num [binary32])]
    norm_num [binary32]
  have hs : binary64.roundQ (-922337217429372927 : ℚ) = -922337217429372928 := by
    rw [binary64.roundQ_eq_of_expo 59 (by rw [abs_of_neg (by norm_num)]; norm_num)
      (by rw [abs_of_neg (by norm_num)]; norm_num) (binary64_emin_le _ (by norm_num))]
    rw [rhe_eq_of_near (-7205759511166976) (by norm_num [binary64]) (by norm_num [binary64])]
    norm_num [binary64]
  have hz : binary64.roundQ (-92233721742937292800 : ℚ) = -92233721742937292800 := by
    have h := binary64.roundQ_repr (-1342177300) 36 (by norm_num [binary64, abs_of_pos])
      (by unfold Format.emin binary64; norm_num)
    have e : ((-1342177300 : ℤ) : ℚ) * (2 : ℚ) ^ (36 : ℤ) = -92233721742937292800 := by norm_num
    rwa [e] at h
  have hr : binary32.roundQ (-92233721742937292800 : ℚ) = -92233720368547758080 := by
    rw [binary32.roundQ_eq_of_expo 66 (by rw [abs_of_neg (by norm_num)]; norm_num)
      (by rw [abs_of_neg (by norm_num)]; norm_num) (binary32_emin_le _ (by norm_num))]
    rw [rhe_eq_of_near (-10485760) (by norm_num [binary32]) (by norm_num [binary32])]
    norm_num [binary32]
  unfold usage_value
  push_cast
  rw [ha, hb, show (18446744073709551616 : ℚ) / 20 = 4611686018427387904 / 5 by norm_num, hq,
    show (1 : ℚ) - 922337217429372928 = -922337217429372927 by norm_num, hs,
    show (-922337217429372928 : ℚ) * 100 = -92233721742937292800 by norm_num, hz, hr]

/-- Zero converts to the float zero. -/
theorem binary32_round_zero : binary32.round 0 = FloatVal.finite 0 := by
  rw [binary32_round_finite (by simp; exact (two_zpow_pos _).le), binary32.roundQ_zero]


/-! ## CPU usage estimator -/

/-- C1, the claim as stated fails: the previous sample `1 0 0 1` leaves the
state `(2, 1)`; in the next sample `18446744073709551612 0 0 11` no counter has
decreased, yet the 64-bit sum wraps to `7`, so `diff_total = 5`,
`diff_idle = 10` and the value returned is `(1 - 10/5) * 100 = -100`, outside
`[0, 100]`. -/
theorem cpu_usage_range_counterexample :
    (get_cpu_usage (some ⟨1, 0, 0, 1⟩) CpuState.init).2 = ⟨2, 1⟩ ∧
    (1 ≤ 18446744073709551612 ∧ 18446744073709551612 < ULONG_MOD ∧ 1 ≤ 11) ∧
    0 < diff_total ⟨18446744073709551612, 0, 0, 11⟩ ⟨2, 1⟩ ∧
    (get_cpu_usage (some ⟨18446744073709551612, 0, 0, 11⟩) ⟨2, 1⟩).1 = FloatVal.finite (-100) ∧
    ¬ (0 ≤ (-100 : ℚ) ∧ (-100 : ℚ) ≤ 100) := by
  refine ⟨rfl, by decide, by decide, ?_, by norm_num⟩
  have hne : diff_total ⟨18446744073709551612, 0, 0, 11⟩ ⟨2, 1⟩ ≠ 0 := by decide
  rw [cpu_usage_finite _ _ hne]
  have h1 : diff_total ⟨18446744073709551612, 0, 0, 11⟩ ⟨2, 1⟩ = 5 := by decide
  have h2 : diff_idle ⟨18446744073709551612, 0, 0, 11⟩ ⟨2, 1⟩ = 10 := by decide
  rw [h1, h2, usage_value_10_5]

/-- C1, amended: let `prev` be any sample and `cur` a later one in which none of
the four counters has decreased and whose sum `user + nice + system + idle`
fits in an `unsigned long`. Called on `cur` in the state that the call on
`prev` left, with `diff_total > 0`, `get_cpu_usage` returns a finite value that
lies in `[0, 100]`; the exact rational `(1 - deltaIdle/deltaTotal) * 100` lies
in `[0, 100]` as well, and the value returned is its floating-point evaluation,
at most `200 / 2^20` away from it. -/
theorem cpu_usage_in_range (st0 : CpuState) (prev cur : RawCpu)
    (hu : prev.user ≤ cur.user) (hn : prev.nice ≤ cur.nice)
    (hs : prev.system ≤ cur.system) (hi : prev.idle ≤ cur.idle)
    (hfit : cur.user + cur.nice + cur.system + cur.idle < ULONG_MOD)
    (hpos : 0 < diff_total cur (get_cpu_usage (some prev) st0).2) :
    ∃ q : ℚ, (get_cpu_usage (some cur) (get_cpu_usage (some prev) st0).2).1 = FloatVal.finite q ∧
      0 ≤ q ∧ q ≤ 100 ∧
      0 ≤ (1 - ((cur.idle - prev.idle : ℕ) : ℚ) /
        ((cur.user + cur.nice + cur.system + cur.idle -
          (prev.user + prev.nice + prev.system + prev.idle) : ℕ) : ℚ)) * 100 ∧
      (1 - ((cur.idle - prev.idle : ℕ) : ℚ) /
        ((cur.user + cur.nice + cur.system + cur.idle -
          (prev.user + prev.nice + prev.system + prev.idle) : ℕ) : ℚ)) * 100 ≤ 100 ∧
      |q - (1 - ((cur.idle - prev.idle : ℕ) : ℚ) /
        ((cur.user + cur.nice + cur.system + cur.idle -
          (prev.user + prev.nice + prev.system + prev.idle) : ℕ) : ℚ)) * 100| ≤ 200 / 2 ^ 20 := by
  have hst : (get_cpu_usage (some prev) st0).2 = ⟨cpu_total prev, prev.idle⟩ := rfl
  rw [hst] at hpos ⊢
  have hfitp : prev.user + prev.nice + prev.system + prev.idle < ULONG_MOD := by omega
  have hdt : diff_total cur ⟨cpu_total prev, prev.idle⟩ =
      (cur.user + cur.nice + cur.system + cur.idle) -
        (prev.user + prev.nice + prev.system + prev.idle) := by
    unfold diff_total
    rw [cpu_total_eq_sum cur hfit, cpu_total_eq_sum prev hfitp]
    have hsum : prev.user + prev.nice + prev.system + prev.idle ≤
        cur.user + cur.nice + cur.system + cur.idle := by omega
    exact usub_eq_sub _ _ hsum hfit
  have hidle : cur.idle < ULONG_MOD := by omega
  have hdi : diff_idle cur ⟨cpu_total prev, prev.idle⟩ = cur.idle - prev.idle := by
    unfold diff_idle
    exact usub_eq_sub _ _ hi hidle
  have hne : diff_total cur ⟨cpu_total prev, prev.idle⟩ ≠ 0 := Nat.pos_iff_ne_zero.mp hpos
  have hval := cpu_usage_finite cur ⟨cpu_total prev, prev.idle⟩ hne
  rw [hdt] at hpos hne
  rw [hdt, hdi] at hval
  have hle : cur.idle - prev.idle ≤ (cur.user + cur.nice + cur.system + cur.idle) -
      (prev.user + prev.nice + prev.system + prev.idle) := by omega
  have hdtlt : (cur.user + cur.nice + cur.system + cur.idle) -
      (prev.user + prev.nice + prev.system + prev.idle) < ULONG_MOD := by omega
  have hdilt : cur.idle - prev.idle < ULONG_MOD := by omega
  have hrange := usage_value_range _ _ hdilt hdtlt hle hpos
  have herr := usage_value_error (cur.idle - prev.idle) _ hdtlt hne
  have hdpos : (0 : ℚ) < (((cur.user + cur.nice + cur.system + cur.idle) -
      (prev.user + prev.nice + prev.system + prev.idle) : ℕ) : ℚ) := by exact_mod_cast hpos
  have hfrac1 : ((cur.idle - prev.idle : ℕ) : ℚ) /
      (((cur.user + cur.nice + cur.system + cur.idle) -
        (prev.user + prev.nice + prev.system + prev.idle) : ℕ) : ℚ) ≤ 1 := by
    rw [div_le_one hdpos]
    exact_mod_cast hle
  have hfrac0 : (0 : ℚ) ≤ ((cur.idle - prev.idle : ℕ) : ℚ) /
      (((cur.user + cur.nice + cur.system + cur.idle) -
        (prev.user + prev.nice + prev.system + prev.idle) : ℕ) : ℚ) :=
    div_nonneg (Nat.cast_nonneg _) (Nat.cast_nonneg _)
  refine ⟨_, congrArg Prod.fst hval, hrange.1, hrange.2, by linarith, by linarith, ?_⟩
  have h20 : (0 : ℚ) ≤ 2 ^ 20 := by norm_num
  exact herr.trans (div_le_div_of_nonneg_right (by linarith) h20)

/-- Witness of `cpu_usage_in_range`: after the sample `100 0 50 850` the sample
`130 0 60 910` gives a value in range. -/
theorem cpu_usage_in_range_witness :
    ∃ q : ℚ, (get_cpu_usage (some ⟨130, 0, 60, 910⟩)
        (get_cpu_usage (some ⟨100, 0, 50, 850⟩) CpuState.init).2).1 = FloatVal.finite q ∧
      0 ≤ q ∧ q ≤ 100 ∧
      0 ≤ (1 - ((910 - 850 : ℕ) : ℚ) / ((130 + 0 + 60 + 910 - (100 + 0 + 50 + 850) : ℕ) : ℚ)) * 100 ∧
      (1 - ((910 - 850 : ℕ) : ℚ) / ((130 + 0 + 60 + 910 - (100 + 0 + 50 + 850) : ℕ) : ℚ)) * 100
        ≤ 100 ∧
      |q - (1 - ((910 - 850 : ℕ) : ℚ) /
        ((130 + 0 + 60 + 910 - (100 + 0 + 50 + 850) : ℕ) : ℚ)) * 100| ≤ 200 / 2 ^ 20 :=
  cpu_usage_in_range CpuState.init ⟨100, 0, 50, 850⟩ ⟨130, 0, 60, 910⟩
    (by decide) (by decide) (by decide) (by decide) (by decide) (by decide)

/-- C2, evaluation at the failing input: the sample `100 0 50 850` read twice in
a row. On the second call `diff_total = 0` and `diff_idle = 0`; the code
divides `0.0f / 0` and returns NaN, not the sentinel `-1`. -/
theorem cpu_usage_zero_delta_is_nan :
    diff_total ⟨100, 0, 50, 850⟩ (get_cpu_usage (some ⟨100, 0, 50, 850⟩) CpuState.init).2 = 0 ∧
    (get_cpu_usage (some ⟨100, 0, 50, 850⟩)
      (get_cpu_usage (some ⟨100, 0, 50, 850⟩) CpuState.init).2).1 = FloatVal.nan ∧
    FloatVal.nan ≠ FloatVal.finite (-1) := by
  have hst : (get_cpu_usage (some ⟨100, 0, 50, 850⟩) CpuState.init).2 = ⟨1000, 850⟩ := rfl
  have hdt : diff_total ⟨100, 0, 50, 850⟩ ⟨1000, 850⟩ = 0 := by decide
  have hdi : diff_idle ⟨100, 0, 50, 850⟩ ⟨1000, 850⟩ = 0 := by decide
  refine ⟨by rw [hst]; exact hdt, ?_, by decide⟩
  rw [hst]
  show FloatVal.toFloat (FloatVal.mul64 (FloatVal.sub64 (FloatVal.finite 1)
    (FloatVal.div32 (FloatVal.ofULong (diff_idle ⟨100, 0, 50, 850⟩ ⟨1000, 850⟩))
      (FloatVal.ofULong (diff_total ⟨100, 0, 50, 850⟩ ⟨1000, 850⟩))))
    (FloatVal.finite 100)) = FloatVal.nan
  rw [hdt, hdi]
  have h0 : FloatVal.ofULong 0 = FloatVal.finite 0 := by
    unfold FloatVal.ofULong
    rw [Nat.cast_zero]
    exact binary32_round_zero
  rw [h0]
  simp [FloatVal.div32, FloatVal.divExact, FloatVal.round, FloatVal.sub64, FloatVal.subExact,
    FloatVal.mul64, FloatVal.mulExact, FloatVal.toFloat]

/-- C7: when `/proc/stat` cannot be opened, `get_cpu_usage` returns `-1` and
leaves `(prev_total, prev_idle)` as they were, so the next successful call
returns the same value and the same new state as if the failed call had not
taken place. -/
theorem cpu_open_failure_keeps_state (st : CpuState) (c : RawCpu) :
    get_cpu_usage none st = (FloatVal.finite (-1), st) ∧
    get_cpu_usage (some c) (get_cpu_usage none st).2 = get_cpu_usage (some c) st :=
  ⟨rfl, rfl⟩

/-- C9, the claim as stated fails, in two ways. Rounding: on the first call the
sample `100 0 50 850` has `deltaTotal = 1000`, `deltaIdle = 850`, for which the
formula gives `15`; the code divides in `float`, where `850/1000` is
`0.85f = 7130317/8388608`, and returns `7864319/524288 = 14.99999809...`.
Unsigned differences: in state `(100, 50)` the sample `80 0 0 40` has
`deltaTotal = 20` and `deltaIdle = 40 - 50 = -10`, for which the formula gives
`150`; the code computes `idle - prev_idle` in `unsigned long`, gets
`2^64 - 10`, and returns `-92233720368547758080`. -/
theorem cpu_usage_formula_counterexample :
    (diff_total ⟨100, 0, 50, 850⟩ CpuState.init ≠ 0 ∧
      estimate_spec ⟨100, 0, 50, 850⟩ 0 0 = 15 ∧
      (get_cpu_usage (some ⟨100, 0, 50, 850⟩) CpuState.init).1 =
        FloatVal.finite (7864319 / 524288) ∧
      (7864319 / 524288 : ℚ) ≠ 15) ∧
    (diff_total ⟨80, 0, 0, 40⟩ ⟨100, 50⟩ ≠ 0 ∧
      estimate_spec ⟨80, 0, 0, 40⟩ 100 50 = 150 ∧
      (get_cpu_usage (some ⟨80, 0, 0, 40⟩) ⟨100, 50⟩).1 =
        FloatVal.finite (-92233720368547758080) ∧
      (-92233720368547758080 : ℚ) ≠ 150) := by
  have hne1 : diff_total ⟨100, 0, 50, 850⟩ CpuState.init ≠ 0 := by decide
  have hne2 : diff_total ⟨80, 0, 0, 40⟩ ⟨100, 50⟩ ≠ 0 := by decide
  refine ⟨⟨hne1, ?_, ?_, by norm_num⟩, ⟨hne2, ?_, ?_, by norm_num⟩⟩
  · simp [estimate_spec]; norm_num
  · have h1 : diff_total ⟨100, 0, 50, 850⟩ CpuState.init = 1000 := by decide
    have h2 : diff_idle ⟨100, 0, 50, 850⟩ CpuState.init = 850 := by decide
    rw [cpu_usage_finite _ _ hne1, h1, h2, usage_value_850_1000]
  · simp [estimate_spec]; norm_num
  · have h1 : diff_total ⟨80, 0, 0, 40⟩ ⟨100, 50⟩ = 20 := by decide
    have h2 : diff_idle ⟨80, 0, 0, 40⟩ ⟨100, 50⟩ = 18446744073709551606 := by decide
    rw [cpu_usage_finite _ _ hne2, h1, h2, usage_value_wrapped]

/-- C9, amended: let `total = (user + nice + system + idle) mod 2^64`,
`deltaTotal = (total - prev_total) mod 2^64` and
`deltaIdle = (idle - prev_idle) mod 2^64`, the values the code computes in
`unsigned long`. For every state and every successfully read sample with
`deltaTotal ≠ 0`, `get_cpu_usage` returns a finite value `q` which is
`(1 - deltaIdle/deltaTotal) * 100` evaluated in floating point (the five
roundings of `usage_value`): it differs from that rational by at most
`(1 + deltaIdle/deltaTotal) * 100 / 2^20`; the new state is exactly
`(total, idle)`. When nothing wraps (the sum of the
counters fits, `prev_total ≤ total` and `prev_idle ≤ idle`), `total` is the
plain sum and `(1 - deltaIdle/deltaTotal) * 100` is the formula of the
specification over the integers; from the initial state `(0, 0)` it is
`(1 - idle/total) * 100`. -/
theorem cpu_usage_formula (st : CpuState) (c : RawCpu) (total deltaTotal deltaIdle : ℤ)
    (htotal : total = ((c.user + c.nice + c.system + c.idle : ℕ) : ℤ) % (ULONG_MOD : ℤ))
    (hdT : deltaTotal = (total - (st.prev_total : ℤ)) % (ULONG_MOD : ℤ))
    (hdI : deltaIdle = ((c.idle : ℤ) - (st.prev_idle : ℤ)) % (ULONG_MOD : ℤ))
    (hne : deltaTotal ≠ 0) :
    ∃ q : ℚ,
      get_cpu_usage (some c) st = (FloatVal.finite q, ⟨total.toNat, c.idle⟩) ∧
      q = usage_value deltaIdle.toNat deltaTotal.toNat ∧
      |q - (1 - (deltaIdle : ℚ) / (deltaTotal : ℚ)) * 100| ≤
        (1 + (deltaIdle : ℚ) / (deltaTotal : ℚ)) * 100 / 2 ^ 20 ∧
      (c.user + c.nice + c.system + c.idle < ULONG_MOD →
        st.prev_total ≤ c.user + c.nice + c.system + c.idle → st.prev_idle ≤ c.idle →
          total = ((c.user + c.nice + c.system + c.idle : ℕ) : ℤ) ∧
          (1 - (deltaIdle : ℚ) / (deltaTotal : ℚ)) * 100 =
            estimate_spec c st.prev_total st.prev_idle) ∧
      (st = CpuState.init → c.user + c.nice + c.system + c.idle < ULONG_MOD →
        (1 - (deltaIdle : ℚ) / (deltaTotal : ℚ)) * 100 =
          (1 - (c.idle : ℚ) / ((c.user + c.nice + c.system + c.idle : ℕ) : ℚ)) * 100) := by
  have hM : (ULONG_MOD : ℤ) = 18446744073709551616 := by norm_num [ULONG_MOD]
  have hMn : ULONG_MOD = 18446744073709551616 := by norm_num [ULONG_MOD]
  rw [hM] at htotal hdT hdI
  have htot : ((cpu_total c : ℕ) : ℤ) = total := by
    unfold cpu_total; rw [hMn, htotal]; omega
  have hdtz : ((diff_total c st : ℕ) : ℤ) = deltaTotal := by
    unfold diff_total usub
    rw [hMn, hdT, ← htot]
    have hlt : cpu_total c < 18446744073709551616 := by
      unfold cpu_total; rw [hMn]; exact Nat.mod_lt _ (by norm_num)
    omega
  have hdiz : ((diff_idle c st : ℕ) : ℤ) = deltaIdle := by
    unfold diff_idle usub
    rw [hMn, hdI]
    omega
  have hne' : diff_total c st ≠ 0 := by
    intro h0; rw [h0] at hdtz; exact hne (by simpa using hdtz.symm)
  have hval := cpu_usage_finite c st hne'
  have herr := usage_value_error (diff_idle c st) (diff_total c st) (usub_lt _ _) hne'
  have hdtq : ((diff_total c st : ℕ) : ℚ) = (deltaTotal : ℚ) := by exact_mod_cast hdtz
  have hdiq : ((diff_idle c st : ℕ) : ℚ) = (deltaIdle : ℚ) := by exact_mod_cast hdiz
  rw [hdtq, hdiq] at herr
  have hstate : cpu_total c = total.toNat := by omega
  have hdin : diff_idle c st = deltaIdle.toNat := by omega
  have hdtn : diff_total c st = deltaTotal.toNat := by omega
  refine ⟨usage_value (diff_idle c st) (diff_total c st), ?_, ?_, herr, ?_, ?_⟩
  · rw [hval, hstate]
  · rw [hdin, hdtn]
  · intro hfit ht hi
    rw [hMn] at hfit
    have e1 : total = ((c.user + c.nice + c.system + c.idle : ℕ) : ℤ) := by omega
    have e2 : deltaTotal = ((c.user + c.nice + c.system + c.idle : ℕ) : ℤ) - st.prev_total := by
      omega
    have e3 : deltaIdle = (c.idle : ℤ) - st.prev_idle := by omega
    refine ⟨e1, ?_⟩
    rw [e2, e3]
    simp only [estimate_spec]
    push_cast
    rfl
  · intro hinit hfit
    rw [hMn] at hfit
    subst hinit
    have e2 : deltaTotal = ((c.user + c.nice + c.system + c.idle : ℕ) : ℤ) := by
      simp only [CpuState.init] at hdT; omega
    have e3 : deltaIdle = (c.idle : ℤ) := by
      simp only [CpuState.init] at hdI; omega
    rw [e2, e3]
    push_cast
    rfl

/-- Witness of `cpu_usage_formula`: the first call, on the sample
`100 0 50 850` in the initial state, where `total = 1000`, `deltaTotal = 1000`
and `deltaIdle = 850`. -/
theorem cpu_usage_formula_witness :
    ∃ q : ℚ,
      get_cpu_usage (some ⟨100, 0, 50, 850⟩) CpuState.init = (FloatVal.finite q, ⟨1000, 850⟩) ∧
      q = usage_value 850 1000 ∧
      |q - (1 - ((850 : ℤ) : ℚ) / ((1000 : ℤ) : ℚ)) * 100| ≤
        (1 + ((850 : ℤ) : ℚ) / ((1000 : ℤ) : ℚ)) * 100 / 2 ^ 20 ∧
      ((1000 : ℤ) = ((100 + 0 + 50 + 850 : ℕ) : ℤ) ∧
        (1 - ((850 : ℤ) : ℚ) / ((1000 : ℤ) : ℚ)) * 100 =
          estimate_spec ⟨100, 0, 50, 850⟩ (0 : ℕ) (0 : ℕ)) ∧
      (1 - ((850 : ℤ) : ℚ) / ((1000 : ℤ) : ℚ)) * 100 =
        (1 - ((850 : ℕ) : ℚ) / ((100 + 0 + 50 + 850 : ℕ) : ℚ)) * 100 :=
  match cpu_usage_formula CpuState.init ⟨100, 0, 50, 850⟩ 1000 1000 850
      (by decide) (by decide) (by decide) (by decide) with
  | ⟨q, h1, h2, h3, h4, h5⟩ =>
    ⟨q, h1, h2, h3, h4 (by decide) (by decide) (by decide), h5 rfl (by decide)⟩

/-! ## Memory figures -/

/-- C5: whenever the scan of `/proc/meminfo` leaves `MemTotal = t` and
`MemAvailable = a` with `a ≤ t` (both `unsigned long`), `display_stats` prints
`used = (t - a) / 1024` and `total = t / 1024`, with truncating division; for
`t = 8000000`, `a = 2000000` these are `5859` and `7812`. -/
theorem display_stats_memory_mb (cpu_fp : Option RawCpu) (mem_fp : Option (List MemLine))
    (st : CpuState) (mem_total0 mem_available0 t a : Nat)
    (hmem : get_memory_usage mem_fp mem_total0 mem_available0 = (t, a))
    (hle : a ≤ t) (ht : t < ULONG_MOD) :
    ((display_stats cpu_fp mem_fp st mem_total0 mem_available0).1.mem_used_mb = (t - a) / 1024 ∧
      (display_stats cpu_fp mem_fp st mem_total0 mem_available0).1.mem_total_mb = t / 1024) ∧
    ((display_stats cpu_fp (some [⟨"MemTotal:", 8000000⟩, ⟨"MemAvailable:", 2000000⟩]) st
        mem_total0 mem_available0).1.mem_used_mb = 5859 ∧
      (display_stats cpu_fp (some [⟨"MemTotal:", 8000000⟩, ⟨"MemAvailable:", 2000000⟩]) st
        mem_total0 mem_available0).1.mem_total_mb = 7812) := by
  refine ⟨⟨?_, ?_⟩, ?_, ?_⟩
  · show usub (get_memory_usage mem_fp mem_total0 mem_available0).1
        (get_memory_usage mem_fp mem_total0 mem_available0).2 / 1024 = (t - a) / 1024
    rw [hmem]
    exact congrArg (· / 1024) (usub_eq_sub t a hle ht)
  · show (get_memory_usage mem_fp mem_total0 mem_available0).1 / 1024 = t / 1024
    rw [hmem]
  · show usub 8000000 2000000 / 1024 = 5859
    decide
  · show 8000000 / 1024 = 7812
    decide

/-- Witness of `display_stats_memory_mb`: a `/proc/meminfo` with the lines
`MemTotal: 8000000 kB`, `MemFree: 500000 kB`, `MemAvailable: 2000000 kB`,
`Buffers: 1000 kB`. -/
theorem display_stats_memory_mb_witness :
    (display_stats none (some [⟨"MemTotal:", 8000000⟩, ⟨"MemFree:", 500000⟩,
        ⟨"MemAvailable:", 2000000⟩, ⟨"Buffers:", 1000⟩]) CpuState.init 0 0).1.mem_used_mb
      = (8000000 - 2000000) / 1024 ∧
    (display_stats none (some [⟨"MemTotal:", 8000000⟩, ⟨"MemFree:", 500000⟩,
        ⟨"MemAvailable:", 2000000⟩, ⟨"Buffers:", 1000⟩]) CpuState.init 0 0).1.mem_total_mb
      = 8000000 / 1024 :=
  (display_stats_memory_mb none (some [⟨"MemTotal:", 8000000⟩, ⟨"MemFree:", 500000⟩,
      ⟨"MemAvailable:", 2000000⟩, ⟨"Buffers:", 1000⟩]) CpuState.init 0 0 8000000 2000000
    (by decide) (by decide) (by decide)).1

/-- C8, evaluation at the failing input: a tick on which `/proc/meminfo` cannot
be opened while the uninitialised locals of `display_stats` hold `12345` and
`678`, after a tick that read `MemTotal: 8000000`, `MemAvailable: 2000000`.
`get_memory_usage` writes to neither output, so the tick uses `12345` and `678`
and prints `11 MB / 12 MB`: neither the previous tick's figures nor zero. -/
theorem memory_open_failure_reports_garbage :
    get_memory_usage (some [⟨"MemTotal:", 8000000⟩, ⟨"MemAvailable:", 2000000⟩]) 0 0
      = (8000000, 2000000) ∧
    get_memory_usage none 12345 678 = (12345, 678) ∧
    (12345, 678) ≠ (8000000, 2000000) ∧ (12345, 678) ≠ (0, 0) ∧
    (display_stats none none CpuState.init 12345 678).1.mem_used_mb = 11 ∧
    (display_stats none none CpuState.init 12345 678).1.mem_total_mb = 12 := by
  decide

/-- C10, the claim as stated fails: after the lines `MemTotal: 100 kB` and
`MemAvailable: 50 kB` both labels have been found, yet a later line
`MemTotal: 999 kB` changes the total that is returned. -/
theorem memory_scan_counterexample :
    get_memory_usage (some [⟨"MemTotal:", 100⟩, ⟨"MemAvailable:", 50⟩]) 0 0 = (100, 50) ∧
    get_memory_usage
      (some [⟨"MemTotal:", 100⟩, ⟨"MemAvailable:", 50⟩, ⟨"MemTotal:", 999⟩]) 0 0 = (999, 50) := by
  decide

/-- The scanning loop leaves in each output the value of the last line that
carries its label, or the initial content when there is none. -/
theorem mem_foldl_last (lines : List MemLine) (total available : Nat) :
    lines.foldl mem_step (total, available) =
      ((((lines.filter (fun l => l.label = "MemTotal:")).map MemLine.value).getLast?).getD total,
       (((lines.filter (fun l => l.label = "MemAvailable:")).map MemLine.value).getLast?).getD
         available) := by
  induction lines generalizing total available with
  | nil => rfl
  | cons l rest ih =>
    rw [List.foldl_cons]
    have hstep : mem_step (total, available) l =
        (if l.label = "MemTotal:" then l.value else total,
         if l.label = "MemAvailable:" then l.value else available) := rfl
    rw [hstep, ih]
    by_cases h1 : l.label = "MemTotal:" <;> by_cases h2 : l.label = "MemAvailable:" <;>
      simp [List.filter_cons, h1, h2, List.getLast?_cons]

/-- C10, amended: for every sequence of scanned lines whose labels fit the
buffer `char label[32]` (at most 31 bytes each), `get_memory_usage` scans every
line up to the end of the data. The total it returns is the value of the last
`MemTotal:` line and the available the value of the last `MemAvailable:` line
of the whole data (an output with no such line keeps the content it had on
entry); lines carrying any other label change neither output. -/
theorem get_memory_usage_last_line_wins (lines : List MemLine) (total available : Nat)
    (_hfit : ∀ l ∈ lines, label_fits l = true) :
    get_memory_usage (some lines) total available =
      ((((lines.filter (fun l => l.label = "MemTotal:")).map MemLine.value).getLast?).getD total,
       (((lines.filter (fun l => l.label = "MemAvailable:")).map MemLine.value).getLast?).getD
         available) ∧
    get_memory_usage
      (some (lines.filter (fun l => l.label = "MemTotal:" ∨ l.label = "MemAvailable:")))
      total available = get_memory_usage (some lines) total available := by
  refine ⟨mem_foldl_last lines total available, ?_⟩
  show List.foldl mem_step _ _ = List.foldl mem_step _ _
  rw [mem_foldl_last, mem_foldl_last, List.filter_filter, List.filter_filter]
  congr 5
  · funext l
    by_cases h1 : l.label = "MemTotal:" <;> simp [h1]
  · funext l
    by_cases h2 : l.label = "MemAvailable:" <;> simp [h2]

/-- Witness of `get_memory_usage_last_line_wins`: the lines `MemTotal: 100 kB`,
`MemFree: 7 kB`, `MemAvailable: 50 kB`, `MemTotal: 999 kB`, scanned with the
outputs holding `1` and `2` on entry, give `(999, 50)`, with or without the
`MemFree:` line. -/
theorem get_memory_usage_last_line_wins_witness :
    get_memory_usage (some [⟨"MemTotal:", 100⟩, ⟨"MemFree:", 7⟩, ⟨"MemAvailable:", 50⟩,
      ⟨"MemTotal:", 999⟩]) 1 2 = (999, 50) ∧
    get_memory_usage (some [⟨"MemTotal:", 100⟩, ⟨"MemAvailable:", 50⟩, ⟨"MemTotal:", 999⟩]) 1 2 =
      get_memory_usage (some [⟨"MemTotal:", 100⟩, ⟨"MemFree:", 7⟩, ⟨"MemAvailable:", 50⟩,
        ⟨"MemTotal:", 999⟩]) 1 2 :=
  get_memory_usage_last_line_wins [⟨"MemTotal:", 100⟩, ⟨"MemFree:", 7⟩, ⟨"MemAvailable:", 50⟩,
    ⟨"MemTotal:", 999⟩] 1 2 (by decide)

/-! ## Process list -/

/-- Rows drawn by the loop when it is entered with `row = start_row + j`,
`j ≤ 10`: the first `11 - j` openable entries, on consecutive rows. -/
theorem proc_rows_process_loop (fopen : String → Option ProcStat) (start_row : Int)
    (entries : List String) (j : Nat) (hj : j ≤ 10) :
    proc_rows (process_loop fopen start_row entries (start_row + j)).draws =
      number_rows (start_row + j) ((openable fopen entries).take (11 - j)) := by
  induction entries generalizing j with
  | nil => simp [process_loop, openable, proc_rows, number_rows]
  | cons d_name rest ih =>
    by_cases hd : first_isdigit d_name = true
    · cases hf : fopen (stat_path d_name) with
      | none =>
        simp only [process_loop, hd, hf, openable, List.filterMap_cons, if_true]
        exact ih j hj
      | some ps =>
        by_cases hb : start_row + (j : Int) + 1 > start_row + 10
        · have hj10 : j = 10 := by omega
          subst hj10
          simp [process_loop, hd, hf, openable, List.filterMap_cons, proc_rows, number_rows]
        · have hlt : j + 1 ≤ 10 := by omega
          have hrow : start_row + (j : Int) + 1 = start_row + ((j + 1 : Nat) : Int) := by
            push_cast; ring
          have htake : 11 - j = (11 - (j + 1)) + 1 := by omega
          simp only [process_loop, hd, hf, hb, openable, List.filterMap_cons, if_true, if_false,
            List.cons_append, List.nil_append, proc_rows]
          rw [htake, List.take_succ_cons, number_rows, hrow]
          exact congrArg _ (ih (j + 1) hlt)
    · have hd' : first_isdigit d_name = false := by simpa using hd
      simp only [process_loop, hd', openable, List.filterMap_cons]
      exact ih j hj

/-- Rows drawn by one call of `display_process_list`: the first eleven
openable entries, in registry order, on the rows from `start_row` on. -/
theorem proc_rows_display_process_list (fopen : String → Option ProcStat) (start_row : Int)
    (entries : List String) :
    proc_rows (display_process_list (some entries) fopen start_row).draws =
      number_rows start_row ((openable fopen entries).take 11) := by
  have h := proc_rows_process_loop fopen start_row entries 0 (by omega)
  simpa [display_process_list] using h

/-- C3, evaluation at the failing input: a registry with the eleven entries
`1` to `11`, every stat file opening, `start_row = 4`. The test
`row > start_row + 10` is made after `row++`, so it first holds after the
eleventh row: eleven process rows are drawn, on rows 4 to 14. -/
theorem process_list_draws_eleven_rows :
    proc_rows (display_process_list
      (some ["1", "2", "3", "4", "5", "6", "7", "8", "9", "10", "11"])
      (fun path => some ⟨0, path⟩) 4).draws =
      [(4, 0, "/proc/1/stat"), (5, 0, "/proc/2/stat"), (6, 0, "/proc/3/stat"),
       (7, 0, "/proc/4/stat"), (8, 0, "/proc/5/stat"), (9, 0, "/proc/6/stat"),
       (10, 0, "/proc/7/stat"), (11, 0, "/proc/8/stat"), (12, 0, "/proc/9/stat"),
       (13, 0, "/proc/10/stat"), (14, 0, "/proc/11/stat")] ∧
    (proc_rows (display_process_list
      (some ["1", "2", "3", "4", "5", "6", "7", "8", "9", "10", "11"])
      (fun path => some ⟨0, path⟩) 4).draws).length = 11 := by
  decide

/-- C4, evaluation at the failing input: a registry with the entries `1` to
`13` in which only `/proc/3/stat` fails to open, so that twelve candidates
open. The failed entry is skipped and takes no row, but the rows drawn are the
first eleven of the openable candidates, not the first `min(10, 12) = 10`. -/
theorem process_list_skip_then_eleven_rows :
    (openable (fun path => if path = "/proc/3/stat" then none else some ⟨0, path⟩)
      ["1", "2", "3", "4", "5", "6", "7", "8", "9", "10", "11", "12", "13"]).length = 12 ∧
    proc_rows (display_process_list
      (some ["1", "2", "3", "4", "5", "6", "7", "8", "9", "10", "11", "12", "13"])
      (fun path => if path = "/proc/3/stat" then none else some ⟨0, path⟩) 4).draws =
      [(4, 0, "/proc/1/stat"), (5, 0, "/proc/2/stat"), (6, 0, "/proc/4/stat"),
       (7, 0, "/proc/5/stat"), (8, 0, "/proc/6/stat"), (9, 0, "/proc/7/stat"),
       (10, 0, "/proc/8/stat"), (11, 0, "/proc/9/stat"), (12, 0, "/proc/10/stat"),
       (13, 0, "/proc/11/stat"), (14, 0, "/proc/12/stat")] := by
  decide

/-- C6, evaluation at the failing input: a registry with the entries `1abc`
and `10`, every stat file opening. The name `1abc` is not purely numeric, yet
it passes `isdigit(*entry->d_name)`, which tests the first byte only: its stat
file is opened and the entry is drawn on row 4, the row the entry `10` would
have had. -/
theorem digit_guard_opens_non_numeric :
    purely_numeric "1abc" = false ∧
    (display_process_list (some ["1abc", "10"]) (fun path => some ⟨0, path⟩) 4).opened =
      ["/proc/1abc/stat", "/proc/10/stat"] ∧
    proc_rows (display_process_list (some ["1abc", "10"]) (fun path => some ⟨0, path⟩) 4).draws =
      [(4, 0, "/proc/1abc/stat"), (5, 0, "/proc/10/stat")] := by
  decide

end CpuMon
